import Mathlib

/-!
Verification of the topic consolidation and canonicalization engine of the
Trend-Analysis-Report-System repository.

The Python sources are shallowly embedded as executable Lean definitions:

* `normalize_topic` (src/main.py, lines 882-911): the regex rewrite pipeline is
  modelled character by character.  Python `re` word boundaries, `\w`, `\s` and
  `\d` are modelled at ASCII scope (`isWordChar`, `isSpaceChar`, `Char.isDigit`),
  and `str.lower` is modelled as ASCII per-character lowering (`Char.toLower`),
  which agrees with Python on every ASCII string.  Each `re.sub` call is a
  left-to-right scan replacing non-overlapping leftmost matches, which is
  exactly what `re.sub` does for the word-alternation and number-unit
  patterns appearing in the source.
* Python dicts are modelled as association lists with update-in-place-else-append
  insertion (`dictInsert`), which preserves Python's insertion-order semantics,
  including the fact that overwriting a key keeps its original position.
* External collaborators (the HDBSCAN labelling, the sentence-transformer
  embedding model, the LLM client) are parameters of the embedded functions.
-/

namespace TrendSpec

/-- Python `\s` at ASCII scope: space, tab, newline, carriage return,
form feed and vertical tab. -/
def isSpaceChar (c : Char) : Bool :=
  c = ' ' || c = '\t' || c = '\n' || c = '\r' || c = '\x0b' || c = '\x0c'

/-- Python `\w` at ASCII scope: letters, digits and underscore. -/
def isWordChar (c : Char) : Bool :=
  c.isAlphanum || c = '_'

/-- Python `str.lower` at ASCII scope, applied per character. -/
def pyLower (s : String) : String :=
  String.mk (s.data.map Char.toLower)

/-- Strip leading and trailing whitespace (Python `str.strip`). -/
def stripChars (s : List Char) : List Char :=
  ((s.dropWhile isSpaceChar).reverse.dropWhile isSpaceChar).reverse

/-- Model of `re.sub(r'\s+', ' ', s)`: replace every maximal run of
whitespace by a single space. -/
def collapseWS : List Char → List Char
  | [] => []
  | c :: rest =>
    match rest with
    | [] => [if isSpaceChar c then ' ' else c]
    | d :: _ =>
      if isSpaceChar c && isSpaceChar d then collapseWS rest
      else (if isSpaceChar c then ' ' else c) :: collapseWS rest

/-- Consume the literal pattern `p` from the front of `s`. -/
def stripPre : List Char → List Char → Option (List Char)
  | [], s => some s
  | _ :: _, [] => none
  | p :: ps, c :: cs => if p = c then stripPre ps cs else none

/-- A `\b` word boundary holds here when the following character is not a
word character (the scanner position always sits right after a word
character when this is consulted). -/
def boundaryOk : List Char → Bool
  | [] => true
  | c :: _ => !(isWordChar c)

/-- Try the literal alternatives of a `\b(w1|w2|...)\b` pattern in order at the
current position; on success return the rest of the input after the match. -/
def matchAlts (alts : List (List Char)) (s : List Char) : Option (List Char) :=
  match alts with
  | [] => none
  | p :: ps =>
    match stripPre p s with
    | some r => if boundaryOk r then some r else matchAlts ps s
    | none => matchAlts ps s

/-- Generic left-to-right `re.sub` scanner.  `m c rest` attempts a match at the
current position (which starts with `c`); on success it yields the replacement
text and the remaining input after the matched text.  Matches are only
attempted at `\b` positions, i.e. when the previous character was not a word
character (`prevW = false`); all the patterns of `normalize_topic` begin with
a word character, so this is exactly the `\b`-prefix semantics.  After a match
the scanner resumes right after the matched text of the ORIGINAL input, as
`re.sub` does; every matched text of the source patterns ends in a word
character, so the flag resumes as `true`.  The fuel argument is set to the
input length plus one by the wrapper, which is enough for a full scan since
each step consumes at least one input character. -/
def scanRe (m : Char → List Char → Option (List Char × List Char)) :
    Nat → Bool → List Char → List Char
  | 0, _, s => s
  | _ + 1, _, [] => []
  | fuel + 1, prevW, c :: rest =>
    if prevW then c :: scanRe m fuel (isWordChar c) rest
    else
      match m c rest with
      | some (repl, r) => repl ++ scanRe m fuel true r
      | none => c :: scanRe m fuel (isWordChar c) rest

/-- Model of `re.sub(pattern, repl, s)` for a word-alternation pattern
`\b(w1|w2|...)\b` with a fixed replacement string. -/
def subWords (alts : List String) (repl : String) (s : List Char) : List Char :=
  scanRe
    (fun c rest => (matchAlts (alts.map String.data) (c :: rest)).map (fun r => (repl.data, r)))
    (s.length + 1) false s

/-- Match `\b(\d+)\s*hour[s]?\b` at the current position (`c` is the first
character).  Returns the captured digit group and the rest of the input.
Greedy `\d+` and `\s*` need no backtracking here: giving back a digit would
put a digit where `\s*hour` must start, and giving back a whitespace
character would put whitespace where `hour` must start. -/
def matchHour (c : Char) (rest : List Char) : Option (List Char × List Char) :=
  if c.isDigit then
    let ds := rest.takeWhile Char.isDigit
    let r1 := (rest.dropWhile Char.isDigit).dropWhile isSpaceChar
    match stripPre [ 'h', 'o', 'u', 'r' ] r1 with
    | some r2 =>
      match r2 with
      | 's' :: r3 => if boundaryOk r3 then some (c :: ds, r3) else none
      | _ => if boundaryOk r2 then some (c :: ds, r2) else none
    | none => none
  else none

/-- The `(ute)?[s]?\b` tail of the minutes pattern, tried with Python's
greedy-first alternative order. -/
def minuteTail : List Char → Option (List Char)
  | 'u' :: 't' :: 'e' :: r2 =>
    match r2 with
    | 's' :: r3 => if boundaryOk r3 then some r3 else none
    | _ => if boundaryOk r2 then some r2 else none
  | 's' :: r3 => if boundaryOk r3 then some r3 else none
  | r => if boundaryOk r then some r else none

/-- Match `\b(\d+)\s*min(ute)?[s]?\b` at the current position. -/
def matchMinute (c : Char) (rest : List Char) : Option (List Char × List Char) :=
  if c.isDigit then
    let ds := rest.takeWhile Char.isDigit
    let r1 := (rest.dropWhile Char.isDigit).dropWhile isSpaceChar
    match stripPre [ 'm', 'i', 'n' ] r1 with
    | some r2 =>
      match minuteTail r2 with
      | some r3 => some (c :: ds, r3)
      | none => none
    | none => none
  else none

/-- Model of `re.sub(r'\b(\d+)\s*hour[s]?\b', r'\1 hour', s)`. -/
def subHours (s : List Char) : List Char :=
  scanRe (fun c rest => (matchHour c rest).map (fun dr => (dr.1 ++ ' ' :: [ 'h', 'o', 'u', 'r' ], dr.2)))
    (s.length + 1) false s

/-- Model of `re.sub(r'\b(\d+)\s*min(ute)?[s]?\b', r'\1 minute', s)`. -/
def subMinutes (s : List Char) : List Char :=
  scanRe (fun c rest => (matchMinute c rest).map (fun dr => (dr.1 ++ ' ' :: [ 'm', 'i', 'n', 'u', 't', 'e' ], dr.2)))
    (s.length + 1) false s

/-- The ordered replacement table of `normalize_topic` (src/main.py 891-906),
applied in Python dict insertion order. -/
def applyReplacements (s : List Char) : List Char :=
  let s1 := subWords [ "is", "are", "was", "were", "be", "being", "been" ] ("") s
  let s2 := subWords [ "a", "an", "the" ] ("") s1
  let s3 := subWords [ "very", "extremely", "really", "so", "too" ] ("") s2
  let s4 := subWords [ "has" ] ("") s3
  let s5 := subWords [ "contains" ] ("") s4
  let s6 := subWords [ "delivery partner" ] ("delivery partner") s5
  let s7 := subWords [ "delivery guy" ] ("delivery partner") s6
  let s8 := subWords [ "delivery person" ] ("delivery partner") s7
  let s9 := subWords [ "rider" ] ("delivery partner") s8
  let s10 := subHours s9
  subMinutes s10

/-- Model of `normalize_topic` (src/main.py 882-911): lowercase and strip,
collapse whitespace, apply the replacement table in order, then collapse
whitespace again and strip. -/
def normalize_topic (s : String) : String :=
  let n0 := collapseWS (stripChars (s.data.map Char.toLower))
  String.mk (stripChars (collapseWS (applyReplacements n0)))

/-! ### Python dict model

Python dicts are modelled as association lists.  `dictInsert` models
`d[k] = v`: if the key is present its value is updated in place (keeping the
key's position, as Python dicts do), otherwise the pair is appended. -/

/-- Lookup in an association list (first occurrence of the key). -/
def alookup {κ α : Type} [DecidableEq κ] : List (κ × α) → κ → Option α
  | [], _ => none
  | (k', v) :: rest, k => if k' = k then some v else alookup rest k

/-- Model of Python `d[k] = v`. -/
def dictInsert {κ α : Type} [DecidableEq κ] : List (κ × α) → κ → α → List (κ × α)
  | [], k, v => [(k, v)]
  | (k', v') :: rest, k, v =>
    if k' = k then (k, v) :: rest else (k', v') :: dictInsert rest k v

/-- Model of Python `list(d.values())`. -/
def avalues {κ α : Type} (m : List (κ × α)) : List α := m.map Prod.snd

/-- Model of Python `list(d.keys())`. -/
def akeys {κ α : Type} (m : List (κ × α)) : List κ := m.map Prod.fst

/-- Model of `d[k] = d.get(k, 0) + 1`. -/
def bumpCount {κ : Type} [DecidableEq κ] (m : List (κ × Nat)) (k : κ) : List (κ × Nat) :=
  dictInsert m k ((alookup m k).getD 0 + 1)

/-- Sum of the values of a counts dict. -/
def sumValues {κ : Type} (m : List (κ × Nat)) : Nat := (m.map Prod.snd).sum

/-- Aggregate a list of items into a counts dict after mapping each item to
its bucket, one increment per occurrence. -/
def tally {κ : Type} [DecidableEq κ] (f : String → κ) (ts : List String) : List (κ × Nat) :=
  ts.foldl (fun m t => bumpCount m (f t)) []

/-- Python `in` on strings: is `p` a contiguous substring of `t`? -/
def isPrefixCL : List Char → List Char → Bool
  | [], _ => true
  | _ :: _, [] => false
  | p :: ps, c :: cs => p = c && isPrefixCL ps cs

/-- Substring containment on character lists (Python `p in t`). -/
def isInfixCL (p : List Char) : List Char → Bool
  | [] => isPrefixCL p []
  | c :: cs => isPrefixCL p (c :: cs) || isInfixCL p cs

/-- Python `keyword in topic` on strings. -/
def strContains (t kw : String) : Bool := isInfixCL kw.data t.data

/-! ### Heuristic consolidator (src/main.py 1024-1088) -/

/-- The fixed keyword table `consolidation_rules` of
`consolidate_topics_heuristic`, verbatim from the source. -/
def consolidation_rules : List (String × List String) :=
  [ ("Positive feedback",
     [ "positive", "good", "great", "excellent", "amazing", "awesome", "love",
       "best", "helpful", "friendly", "fast", "quick", "perfect", "satisfied" ]),
    ("Delivery partner unprofessional",
     [ "rude", "impolite", "unprofessional", "disrespectful", "behavior", "attitude" ]),
    ("Delivery delay",
     [ "late", "delay", "slow", "hour", "wait", "time", "delayed" ]),
    ("Food temperature issues",
     [ "cold", "hot", "warm", "temperature", "lukewarm" ]),
    ("Food freshness issues",
     [ "stale", "spoiled", "rotten", "old", "fresh", "bad quality" ]),
    ("App crashes/freezes",
     [ "crash", "freeze", "stuck", "not working", "not responding", "hang" ]),
    ("App performance issues",
     [ "slow", "lag", "bug", "glitch", "issue", "problem", "error" ]),
    ("10 minute delivery removed",
     [ "10 minute", "bolt", "express", "fast delivery" ]),
    ("24/7 service request",
     [ "24/7", "24 hour", "all night", "late night", "instamart" ]),
    ("Missing items",
     [ "missing", "forgot", "didn't receive", "not delivered" ]),
    ("Wrong order",
     [ "wrong", "incorrect", "mistake", "different" ]),
    ("Payment issues",
     [ "payment", "charge", "refund", "money", "price", "cost" ]) ]

/-- Does `topic` match the keyword list of one rule
(`any(keyword in topic_lower for keyword in keywords)`)? -/
def matchesRule (kws : List String) (topic : String) : Bool :=
  kws.any (fun kw => strContains (pyLower topic) kw)

/-- Does `topic` match the keyword list of at least one rule?  This is
membership in the source's `mapped_topics` set. -/
def matchesAnyRule (topic : String) : Bool :=
  consolidation_rules.any (fun rule => matchesRule rule.2 topic)

/-- Model of `consolidate_topics_heuristic` (src/main.py 1024-1088): for each
rule in order, collect the topics matching any of its keywords into that
rule's bucket (when non-empty); afterwards every topic that matched no rule
becomes its own singleton bucket. -/
def consolidate_topics_heuristic (unique_topics : List String) : List (String × List String) :=
  let base := consolidation_rules.foldl
    (fun m rule =>
      let matching := unique_topics.filter (fun t => matchesRule rule.2 t)
      if matching = [] then m else dictInsert m rule.1 matching) []
  (unique_topics.filter (fun t => !(matchesAnyRule t))).foldl
    (fun m t => dictInsert m t [t]) base

/-- Number of buckets of a canonical mapping whose variation list contains
`t`. -/
def bucketCount (m : List (String × List String)) (t : String) : Nat :=
  (m.filter (fun kv => kv.2.contains t)).length

/-! ### Topic clusterer (src/ml/topic_clustering.py 36-102) -/

/-- Model of `list({t.lower(): t for t in topics}.values())` (line 51): the
case-insensitive deduplication of the input list via a dict comprehension.
Duplicate keys are overwritten, so for each case-class the value kept is the
LAST occurrence's original casing, sitting at the position of the first
occurrence. -/
def dedupLastCasing (topics : List String) : List String :=
  avalues (topics.foldl (fun m t => dictInsert m (pyLower t) t) [])

/-- Append `t` to the list at key `k` of a `defaultdict(list)`. -/
def appendAt (m : List (Int × List String)) (k : Int) (t : String) : List (Int × List String) :=
  dictInsert m k ((alookup m k).getD [] ++ [t])

/-- Group the unique topics by their (non-noise) cluster label, in
`defaultdict` insertion order. -/
def groupClusters (labels : String → Int) (uniq : List String) : List (Int × List String) :=
  uniq.foldl (fun cl t => if labels t = -1 then cl else appendAt cl (labels t) t) []

/-- Model of `TopicClusterer.cluster_topics` (src/ml/topic_clustering.py
36-102).  The HDBSCAN label assignment is the parameter `labels` (label `-1`
means noise), and `_generate_cluster_name` (medoid selection over the
embeddings) is the parameter `nameOf`; the structure theorems only use the
fact, true of `_generate_cluster_name`, that the chosen name is a member of
the cluster. -/
def cluster_topics (labels : String → Int) (nameOf : List String → String)
    (topics : List String) : List (String × List String) :=
  if topics = [] then []
  else
    let uniq := dedupLastCasing topics
    let clusters := groupClusters labels uniq
    let base := clusters.foldl (fun m kv => dictInsert m (nameOf kv.2) kv.2) []
    (uniq.filter (fun t => labels t = -1)).foldl (fun m t => dictInsert m t [t]) base

/-! ### Embedding service (src/config/embedding_service.py 49-116) -/

/-- The validity filter of `EmbeddingService.encode`
(`[t for t in texts if t and len(t.strip()) > 0]`). -/
def isValidText (t : String) : Bool :=
  decide (t ≠ ("")) && t.data.any (fun c => !(isSpaceChar c))

/-- Model of `EmbeddingService.encode` (src/config/embedding_service.py
49-116).  `model` is the underlying sentence-transformer (a pure map from a
text to its vector), `cache` the optional persistent embedding cache, `zero`
the zero vector (`np.zeros` rows), and the result the list of rows of the
returned array.  With a cache, the cached rows and the freshly encoded rows
are written into a zero matrix at their respective indices, exactly as in the
source. -/
def encode {α : Type} (model : String → α) (cache : Option (String → Option α))
    (zero : α) (texts : List String) : List α :=
  let valid := texts.filter isValidText
  if valid = [] then []
  else
    match cache with
    | none => valid.map model
    | some c =>
      let cachedPairs := valid.enum.filterMap (fun it => (c it.2).map (fun e => (it.1, e)))
      let uncachedIdx := valid.enum.filterMap
        (fun it => match c it.2 with | none => some it.1 | some _ => none)
      let uncachedTexts := valid.filter (fun t => (c t).isNone)
      let news := uncachedTexts.map model
      let base : Nat → α := fun _ => zero
      let withCached := cachedPairs.foldl (fun f p i => if i = p.1 then p.2 else f i) base
      let full := (uncachedIdx.zip news).foldl (fun f p i => if i = p.1 then p.2 else f i) withCached
      (List.range valid.length).map full

/-- The row-index-to-row function that the cached branch of `encode` builds
(zero matrix, cached rows written at their indices, then fresh rows written
at the uncached indices), generalized over the starting index `k` of the
enumeration for reasoning purposes; `encode` uses it with `k = 0`. -/
def encodeTable {α : Type} (model : String → α) (c : String → Option α) (k : Nat)
    (l : List String) (f0 : Nat → α) : Nat → α :=
  (((l.enumFrom k).filterMap (fun it =>
      match c it.2 with | none => some it.1 | some _ => none)).zip
    ((l.filter (fun t => (c t).isNone)).map model)).foldl
    (fun f p j => if j = p.1 then p.2 else f j)
    (((l.enumFrom k).filterMap (fun it => (c it.2).map (fun e => (it.1, e)))).foldl
      (fun f p j => if j = p.1 then p.2 else f j) f0)

/-- The row that `encode` produces for one surviving text: the cached vector
when present, else the freshly encoded one. -/
def embOf {α : Type} (model : String → α) (cache : Option (String → Option α))
    (t : String) : α :=
  match cache with
  | none => model t
  | some c => (c t).getD (model t)

/-! ### Topic-to-canonical mappers (src/main.py 1125-1250) -/

/-- First index of the maximum of a rational list (numpy `argmax` keeps the
first occurrence of the maximum). -/
def argmaxAux : List ℚ → Nat → Nat → ℚ → Nat
  | [], _, best, _ => best
  | x :: xs, i, best, bv =>
    if bv < x then argmaxAux xs (i + 1) i x else argmaxAux xs (i + 1) best bv

/-- numpy `argmax` over a list of similarities. -/
def argmaxIdx : List ℚ → Nat
  | [] => 0
  | x :: xs => argmaxAux xs 1 0 x

/-- The similarity row of one raw topic against the canonical topics
(`similarity_matrix[topic_idx]`), with cosine similarity abstracted as the
parameter `sim`. -/
def simRow (sim : String → String → ℚ) (cs : List String) (t : String) : List ℚ :=
  cs.map (sim t)

/-- The best similarity of `t` against the canonical topics. -/
def bestSim (sim : String → String → ℚ) (cs : List String) (t : String) : ℚ :=
  (simRow sim cs t).getD (argmaxIdx (simRow sim cs t)) 0

/-- The canonical topic at the argmax index
(`canonical_topics[best_idx]`). -/
def bestCanonical (sim : String → String → ℚ) (cs : List String) (t : String) : String :=
  cs.getD (argmaxIdx (simRow sim cs t)) ("")

/-- The canonical bucket that one occurrence of `t` is counted under in the
embedding-based mapper: the argmax canonical when the best similarity reaches
the threshold (inclusive `>=`), otherwise the topic itself. -/
def chooseEmbedding (sim : String → String → ℚ) (θ : ℚ) (cs : List String) (t : String) : String :=
  if θ ≤ bestSim sim cs t then bestCanonical sim cs t else t

/-- The loop body of `map_topics_to_canonical_embedding` for one raw topic:
bump the chosen bucket and, for a below-threshold topic not yet recorded,
record the best canonical as its suggestion in the unmapped dict. -/
def embeddingStep (sim : String → String → ℚ) (θ : ℚ) (cs : List String)
    (acc : List (String × Nat) × List (String × String)) (t : String) :
    List (String × Nat) × List (String × String) :=
  if θ ≤ bestSim sim cs t then (bumpCount acc.1 (bestCanonical sim cs t), acc.2)
  else
    (bumpCount acc.1 t,
      match alookup acc.2 t with
      | some _ => acc.2
      | none => dictInsert acc.2 t (bestCanonical sim cs t))

/-- Process the dates of a `topics_by_date` dict in sorted key order
(`for date_str in sorted(topics_by_date.keys())`). -/
def sortedDates {α : Type} (tbd : List (String × α)) (dflt : α) : List (String × α) :=
  ((akeys tbd).insertionSort (fun a b => a ≤ b)).map (fun d => (d, (alookup tbd d).getD dflt))

/-- Model of `map_topics_to_canonical_embedding` (src/main.py 1125-1182).
The embedding backend and the cosine similarity matrix are abstracted as the
similarity function `sim`; the structure of the counting loop is verbatim. -/
def map_topics_to_canonical_embedding (sim : String → String → ℚ)
    (tbd : List (String × List String)) (cmap : List (String × List String)) (θ : ℚ) :
    List (String × List (String × Nat)) × List (String × String) :=
  let cs := akeys cmap
  (sortedDates tbd []).foldl
    (fun acc dts =>
      let day := dts.2.foldl (embeddingStep sim θ cs) ([], acc.2)
      (dictInsert acc.1 dts.1 day.1, day.2))
    ([], [])

/-- The reverse index `variation_to_canonical` of the fuzzy mapper
(src/main.py 1190-1194): every declared variation, lowercased, maps to its
canonical; later canonicals overwrite earlier ones for a repeated lowered
variation. -/
def variationToCanonical (cmap : List (String × List String)) : List (String × String) :=
  cmap.foldl (fun m kv => kv.2.foldl (fun m v => dictInsert m (pyLower v) kv.1) m) []

/-- The substring-containment pass of the fuzzy mapper: the first variation
(in dict order) containing the topic or contained in it, if any. -/
def fuzzySubstringFind (v2c : List (String × String)) (tl : String) : Option String :=
  match v2c with
  | [] => none
  | (var, can) :: rest =>
    if isInfixCL var.data tl.data || isInfixCL tl.data var.data then some can
    else fuzzySubstringFind rest tl

/-- Maximal runs of word characters of a string: Python
`re.findall(r'\w+', s)`. -/
def wordRunsAux : List Char → List Char → List String
  | [], acc => if acc = [] then [] else [String.mk acc.reverse]
  | c :: rest, acc =>
    if isWordChar c then wordRunsAux rest (c :: acc)
    else if acc = [] then wordRunsAux rest []
    else String.mk acc.reverse :: wordRunsAux rest []

/-- Python `re.findall(r'\w+', s)`. -/
def wordRuns (s : String) : List String := wordRunsAux s.data []

/-- Model of `find_best_canonical_match` (src/main.py 1230-1250): pick the
canonical whose variation word set has the largest overlap with the topic's
word set, keeping the first maximum (strict improvement only); default to the
topic itself when every overlap is zero. -/
def find_best_canonical_match (topic : String) (cmap : List (String × List String)) : String :=
  let tw := (wordRuns (pyLower topic)).dedup
  let best := cmap.foldl
    (fun acc kv =>
      let allWords := (kv.2.map (fun v => wordRuns (pyLower v))).flatten.dedup
      let overlap := (tw.filter (fun w => allWords.contains w)).length
      if acc.2 < overlap then (kv.1, overlap) else acc)
    (topic, 0)
  if 0 < best.2 then best.1 else topic

/-- The canonical bucket one occurrence of `t` is counted under in the fuzzy
mapper: exact case-insensitive match in the reverse index, else substring
containment in either direction, else the topic itself. -/
def chooseFuzzy (v2c : List (String × String)) (t : String) : String :=
  match alookup v2c (pyLower t) with
  | some c => c
  | none =>
    match fuzzySubstringFind v2c (pyLower t) with
    | some c => c
    | none => t

/-- The loop body of `map_topics_to_canonical_fuzzy` for one raw topic. -/
def fuzzyStep (v2c : List (String × String)) (cmap : List (String × List String))
    (acc : List (String × Nat) × List (String × String)) (t : String) :
    List (String × Nat) × List (String × String) :=
  match alookup v2c (pyLower t) with
  | some c => (bumpCount acc.1 c, acc.2)
  | none =>
    match fuzzySubstringFind v2c (pyLower t) with
    | some c => (bumpCount acc.1 c, acc.2)
    | none =>
      (bumpCount acc.1 t,
        match alookup acc.2 t with
        | some _ => acc.2
        | none => dictInsert acc.2 t (find_best_canonical_match t cmap))

/-- Model of `map_topics_to_canonical_fuzzy` (src/main.py 1185-1227). -/
def map_topics_to_canonical_fuzzy (tbd : List (String × List String))
    (cmap : List (String × List String)) :
    List (String × List (String × Nat)) × List (String × String) :=
  let v2c := variationToCanonical cmap
  (sortedDates tbd []).foldl
    (fun acc dts =>
      let day := dts.2.foldl (fuzzyStep v2c cmap) ([], acc.2)
      (dictInsert acc.1 dts.1 day.1, day.2))
    ([], [])

/-! ### Consolidation orchestrator (src/main.py 914-953 and 956-1021)

The embedding-clustering tier and the LLM tier both run inside
`try/except` blocks whose handlers fall through to the next tier.  Their
outcomes are modelled as `Except Unit` values: `.error ()` models any
exception raised inside the corresponding `try` block (embedding backend
unavailable, unparseable LLM response, ...), `.ok m` a successful
canonical mapping.  The final heuristic tier is the total pure function
`consolidate_topics_heuristic`.  `list(set(all_topics))` is modelled by
`List.dedup` (an order for the deduplicated topics that Python's set does
not specify). -/

/-- Model of `consolidate_topics_llm` (src/main.py 956-1021): on any
exception in the LLM tier, fall back to the heuristic consolidator over the
deduplicated topics. -/
def consolidate_topics_llm (llmOut : Except Unit (List (String × List String)))
    (all_topics : List String) : List (String × List String) :=
  if all_topics = [] then []
  else
    match llmOut with
    | .ok m => m
    | .error _ => consolidate_topics_heuristic all_topics.dedup

/-- Model of `consolidate_topics` (src/main.py 914-953): try embedding
clustering when enabled, fall through to the LLM tier on failure, which
itself falls through to the heuristic tier on failure. -/
def consolidate_topics (useEmbeddings : Bool)
    (clusterOut : Except Unit (List (String × List String)))
    (llmOut : Except Unit (List (String × List String)))
    (all_topics : List String) : List (String × List String) :=
  if all_topics = [] then []
  else if useEmbeddings then
    match clusterOut with
    | .ok m => m
    | .error _ => consolidate_topics_llm llmOut all_topics
  else consolidate_topics_llm llmOut all_topics

/-- Lookup a canonical count for one date in a per-date counts dict. -/
def alookup2 (m : List (String × List (String × Nat))) (d c : String) : Option Nat :=
  (alookup m d).bind (fun dm => alookup dm c)

/-- Number of heuristic rules whose keyword list matches `t`. -/
def matchingRuleCount (t : String) : Nat :=
  (consolidation_rules.filter (fun r => matchesRule r.2 t)).length

/-! ### Association list lemmas -/

theorem alookup_dictInsert_self {κ α : Type} [DecidableEq κ] (m : List (κ × α)) (k : κ) (v : α) :
    alookup (dictInsert m k v) k = some v := by
  induction m with
  | nil => simp [dictInsert, alookup]
  | cons p rest ih =>
    by_cases h : p.1 = k
    · simp [dictInsert, h, alookup]
    · simp [dictInsert, h, alookup, ih]

theorem alookup_dictInsert_ne {κ α : Type} [DecidableEq κ] (m : List (κ × α)) (k k' : κ) (v : α)
    (h : k' ≠ k) : alookup (dictInsert m k v) k' = alookup m k' := by
  have hne : ¬ k = k' := fun hh => h hh.symm
  induction m with
  | nil => simp [dictInsert, alookup, hne]
  | cons p rest ih =>
    by_cases hp : p.1 = k
    · rw [dictInsert, if_pos hp, alookup, alookup, if_neg hne, if_neg (hp ▸ hne)]
    · rw [dictInsert, if_neg hp, alookup, alookup, ih]

theorem mem_dictInsert {κ α : Type} [DecidableEq κ] (m : List (κ × α)) (k : κ) (v : α)
    (p : κ × α) : p ∈ dictInsert m k v → p ∈ m ∨ p = (k, v) := by
  induction m with
  | nil => intro hp; simpa [dictInsert] using hp
  | cons q rest ih =>
    intro hp
    rw [dictInsert] at hp
    by_cases h : q.1 = k
    · rw [if_pos h] at hp
      rcases List.mem_cons.1 hp with h1 | h1
      · right; exact h1
      · left; exact List.mem_cons_of_mem _ h1
    · rw [if_neg h] at hp
      rcases List.mem_cons.1 hp with h1 | h1
      · left; exact h1 ▸ List.mem_cons_self _ _
      · rcases ih h1 with h2 | h2
        · left; exact List.mem_cons_of_mem _ h2
        · right; exact h2

theorem mem_akeys_dictInsert {κ α : Type} [DecidableEq κ] (m : List (κ × α)) (k a : κ) (v : α)
    (ha : a ∈ akeys (dictInsert m k v)) : a ∈ akeys m ∨ a = k := by
  rcases List.mem_map.1 ha with ⟨p, hp, hpa⟩
  rcases mem_dictInsert m k v p hp with h | h
  · left; exact hpa ▸ List.mem_map_of_mem _ h
  · right; rw [← hpa, h]

theorem akeys_dictInsert_mem {κ α : Type} [DecidableEq κ] (m : List (κ × α)) (k : κ) (v : α) :
    k ∈ akeys m → akeys (dictInsert m k v) = akeys m := by
  induction m with
  | nil => intro hk; simp [akeys] at hk
  | cons p rest ih =>
    intro hk
    by_cases h : p.1 = k
    · simp [dictInsert, h, akeys]
    · simp only [akeys, List.map_cons, List.mem_cons] at hk
      rcases hk with hk | hk
      · exact absurd hk.symm h
      · rw [dictInsert, if_neg h]
        simp only [akeys, List.map_cons]
        rw [show List.map Prod.fst (dictInsert rest k v) = akeys (dictInsert rest k v) from rfl,
          ih hk]
        rfl

theorem akeys_dictInsert_notmem {κ α : Type} [DecidableEq κ] (m : List (κ × α)) (k : κ) (v : α) :
    k ∉ akeys m → akeys (dictInsert m k v) = akeys m ++ [k] := by
  induction m with
  | nil => intro hk; simp [dictInsert, akeys]
  | cons p rest ih =>
    intro hk
    simp only [akeys, List.map_cons, List.mem_cons] at hk
    push_neg at hk
    rw [dictInsert, if_neg (fun hh => hk.1 hh.symm)]
    simp only [akeys, List.map_cons]
    rw [show List.map Prod.fst (dictInsert rest k v) = akeys (dictInsert rest k v) from rfl,
      ih hk.2]
    rfl

theorem nodup_akeys_dictInsert {κ α : Type} [DecidableEq κ] (m : List (κ × α)) (k : κ) (v : α)
    (h : (akeys m).Nodup) : (akeys (dictInsert m k v)).Nodup := by
  by_cases hk : k ∈ akeys m
  · rw [akeys_dictInsert_mem m k v hk]; exact h
  · rw [akeys_dictInsert_notmem m k v hk, List.nodup_append]
    refine ⟨h, List.nodup_singleton _, ?_⟩
    intro a ha hb
    rw [List.mem_singleton] at hb
    exact hk (hb ▸ ha)

theorem dictInsert_eq_append {κ α : Type} [DecidableEq κ] (m : List (κ × α)) (k : κ) (v : α) :
    k ∉ akeys m → dictInsert m k v = m ++ [(k, v)] := by
  induction m with
  | nil => intro hk; simp [dictInsert]
  | cons p rest ih =>
    intro hk
    simp only [akeys, List.map_cons, List.mem_cons] at hk
    push_neg at hk
    rw [dictInsert, if_neg (fun hh => hk.1 hh.symm), ih hk.2]
    rfl

theorem alookup_mem {κ α : Type} [DecidableEq κ] (m : List (κ × α)) (k : κ) (v : α) :
    alookup m k = some v → (k, v) ∈ m := by
  induction m with
  | nil => intro h; simp [alookup] at h
  | cons p rest ih =>
    intro h
    by_cases hp : p.1 = k
    · rw [alookup, if_pos hp] at h
      have : p = (k, v) := by
        rcases p with ⟨pk, pv⟩
        simp only at hp
        simp only [Option.some.injEq] at h
        rw [hp, h]
      exact this ▸ List.mem_cons_self _ _
    · rw [alookup, if_neg hp] at h
      exact List.mem_cons_of_mem _ (ih h)

theorem alookup_eq_of_mem_nodup {κ α : Type} [DecidableEq κ] (m : List (κ × α)) (k : κ) (v : α)
    (hnd : (akeys m).Nodup) (hmem : (k, v) ∈ m) : alookup m k = some v := by
  induction m with
  | nil => simp at hmem
  | cons p rest ih =>
    simp only [akeys, List.map_cons, List.nodup_cons] at hnd
    rcases List.mem_cons.1 hmem with h | h
    · rw [← h]
      simp [alookup]
    · have hp : p.1 ≠ k := by
        intro hpk
        exact hnd.1 (hpk ▸ List.mem_map_of_mem Prod.fst h)
      rw [alookup, if_neg hp]
      exact ih hnd.2 h

theorem alookup_append {κ α : Type} [DecidableEq κ] (m1 m2 : List (κ × α)) (k : κ) :
    alookup (m1 ++ m2) k =
      match alookup m1 k with
      | some v => some v
      | none => alookup m2 k := by
  induction m1 with
  | nil => simp [alookup]
  | cons p rest ih =>
    by_cases hp : p.1 = k
    · simp [alookup, hp]
    · simp [alookup, hp, ih]

/-- Looking up an association list built as `keys.map (fun k => (k, g k))`
returns `g k` exactly when the key occurs, with no distinctness needed since
the value is determined by the key. -/
theorem alookup_mapform {κ α : Type} [DecidableEq κ] (L : List κ) (g : κ → α) (k : κ) :
    alookup (L.map (fun d => (d, g d))) k = if k ∈ L then some (g k) else none := by
  induction L with
  | nil => simp [alookup]
  | cons d rest ih =>
    by_cases hd : d = k
    · subst hd
      simp [alookup]
    · have hdk : ¬ k = d := fun hh => hd hh.symm
      simp [alookup, hd, ih, List.mem_cons, hdk]

/-- A left fold of `dictInsert` realizes last-write-wins lookup. -/
theorem alookup_foldl_dictInsert {κ α : Type} [DecidableEq κ] (P : List (κ × α))
    (m0 : List (κ × α)) (k : κ) :
    alookup (P.foldl (fun m q => dictInsert m q.1 q.2) m0) k =
      match alookup P.reverse k with
      | some v => some v
      | none => alookup m0 k := by
  induction P generalizing m0 with
  | nil => simp [alookup]
  | cons q rest ih =>
    rw [List.foldl_cons, ih, List.reverse_cons, alookup_append]
    cases hrev : alookup rest.reverse k with
    | some v => rfl
    | none =>
      by_cases hq : q.1 = k
      · rw [← hq, alookup_dictInsert_self]
        simp [alookup]
      · rw [alookup_dictInsert_ne _ _ _ _ (fun hh => hq hh.symm)]
        simp [alookup, hq]

/-- Folding `dictInsert` over key-determined pairs: lookup gives the
determined value for written keys and falls back to the base map
otherwise. -/
theorem alookup_foldl_dictInsert_det {κ α : Type} [DecidableEq κ] (L : List κ) (g : κ → α)
    (m0 : List (κ × α)) (k : κ) :
    alookup ((L.map (fun d => (d, g d))).foldl (fun m q => dictInsert m q.1 q.2) m0) k =
      if k ∈ L then some (g k) else alookup m0 k := by
  rw [alookup_foldl_dictInsert]
  rw [← List.map_reverse, alookup_mapform]
  by_cases hk : k ∈ L
  · simp [hk, List.mem_reverse]
  · simp [hk, List.mem_reverse]

/-! ### Counting lemmas -/

theorem sumValues_bumpCount {κ : Type} [DecidableEq κ] (m : List (κ × Nat)) (k : κ) :
    sumValues (bumpCount m k) = sumValues m + 1 := by
  induction m with
  | nil => simp [bumpCount, dictInsert, sumValues, alookup]
  | cons p rest ih =>
    by_cases hp : p.1 = k
    · simp [bumpCount, dictInsert, hp, sumValues, alookup]
      omega
    · have hne : ¬ p.1 = k := hp
      simp only [bumpCount, alookup, hne, if_false, dictInsert, sumValues, List.map_cons,
        List.sum_cons] at ih ⊢
      omega

theorem sumValues_foldl_bump {κ : Type} [DecidableEq κ] (f : String → κ) (ts : List String) :
    ∀ m : List (κ × Nat), sumValues (ts.foldl (fun m t => bumpCount m (f t)) m) =
      sumValues m + ts.length := by
  induction ts with
  | nil => intro m; simp
  | cons t rest ih =>
    intro m
    rw [List.foldl_cons, ih, sumValues_bumpCount, List.length_cons]
    omega

/-- The total of a tally is the length of the tallied list: every occurrence
is counted exactly once. -/
theorem sumValues_tally {κ : Type} [DecidableEq κ] (f : String → κ) (ts : List String) :
    sumValues (tally f ts) = ts.length := by
  rw [tally, sumValues_foldl_bump]
  simp [sumValues]

theorem alookup_foldl_bump {κ : Type} [DecidableEq κ] (f : String → κ) (ts : List String) :
    ∀ (m : List (κ × Nat)) (c : κ),
      alookup (ts.foldl (fun m t => bumpCount m (f t)) m) c =
        if (ts.map f).count c = 0 then alookup m c
        else some ((alookup m c).getD 0 + (ts.map f).count c) := by
  induction ts with
  | nil => intro m c; simp
  | cons t rest ih =>
    intro m c
    rw [List.foldl_cons, ih, List.map_cons, List.count_cons]
    by_cases hf : f t = c
    · subst hf
      simp only [beq_self_eq_true, if_true]
      rw [bumpCount, alookup_dictInsert_self]
      by_cases hc : (rest.map f).count (f t) = 0
      · simp [hc]
      · have h1 : ¬ ((rest.map f).count (f t) + 1 = 0) := by omega
        simp only [hc, if_false, h1, Option.getD_some]
        congr 1
        omega
    · have hbeq : (f t == c) = false := by simp [hf]
      simp only [hbeq, Bool.false_eq_true, if_false, Nat.add_zero]
      rw [bumpCount, alookup_dictInsert_ne _ _ _ _ (fun hh => hf hh.symm)]

/-- The per-canonical value of a tally is the occurrence count of that
canonical among the mapped items. -/
theorem alookup_tally {κ : Type} [DecidableEq κ] (f : String → κ) (ts : List String) (c : κ) :
    alookup (tally f ts) c =
      if (ts.map f).count c = 0 then none else some ((ts.map f).count c) := by
  rw [tally, alookup_foldl_bump]
  by_cases hc : (ts.map f).count c = 0
  · simp [hc, alookup]
  · simp [hc, alookup]

/-- Tallies of permuted lists agree at every key. -/
theorem alookup_tally_perm {κ : Type} [DecidableEq κ] (f : String → κ) (ts ts' : List String)
    (h : ts.Perm ts') (c : κ) : alookup (tally f ts) c = alookup (tally f ts') c := by
  rw [alookup_tally, alookup_tally, (h.map f).count_eq]

/-! ### Fold structure of the two mappers -/

/-- The counts component of the per-date loop of either mapper is a pure
tally, independent of the threaded unmapped dict. -/
theorem fst_foldl_pairStep {stepF : List (String × Nat) × List (String × String) → String →
      List (String × Nat) × List (String × String)} {ch : String → String}
    (hfst : ∀ a t, (stepF a t).1 = bumpCount a.1 (ch t)) (ts : List String) :
    ∀ (m : List (String × Nat)) (u : List (String × String)),
      (ts.foldl stepF (m, u)).1 = ts.foldl (fun m t => bumpCount m (ch t)) m := by
  induction ts with
  | nil => intro m u; rfl
  | cons t rest ih =>
    intro m u
    rw [List.foldl_cons, List.foldl_cons]
    have : stepF (m, u) t = (bumpCount m (ch t), (stepF (m, u) t).2) := by
      rw [← hfst (m, u) t]
    rw [this, ih]

/-- The counts component of the outer date loop of either mapper inserts each
date's tally under that date, independent of the threaded unmapped dict. -/
theorem fst_foldl_dates {stepF : List (String × Nat) × List (String × String) → String →
      List (String × Nat) × List (String × String)} {ch : String → String}
    (hfst : ∀ a t, (stepF a t).1 = bumpCount a.1 (ch t)) (P : List (String × List String)) :
    ∀ (res : List (String × List (String × Nat))) (unm : List (String × String)),
      ((P.foldl (fun acc dts =>
          let day := dts.2.foldl stepF ([], acc.2)
          (dictInsert acc.1 dts.1 day.1, day.2)) (res, unm)).1) =
        P.foldl (fun r dts => dictInsert r dts.1 (tally ch dts.2)) res := by
  induction P with
  | nil => intro res unm; rfl
  | cons dts rest ih =>
    intro res unm
    rw [List.foldl_cons, List.foldl_cons]
    simp only
    rw [ih, fst_foldl_pairStep hfst, tally]

theorem embeddingStep_fst (sim : String → String → ℚ) (θ : ℚ) (cs : List String)
    (a : List (String × Nat) × List (String × String)) (t : String) :
    (embeddingStep sim θ cs a t).1 = bumpCount a.1 (chooseEmbedding sim θ cs t) := by
  rw [embeddingStep, chooseEmbedding]
  by_cases h : θ ≤ bestSim sim cs t
  · rw [if_pos h, if_pos h]
  · rw [if_neg h, if_neg h]

theorem fuzzyStep_fst (v2c : List (String × String)) (cmap : List (String × List String))
    (a : List (String × Nat) × List (String × String)) (t : String) :
    (fuzzyStep v2c cmap a t).1 = bumpCount a.1 (chooseFuzzy v2c t) := by
  rw [fuzzyStep, chooseFuzzy]
  cases h1 : alookup v2c (pyLower t) with
  | some c => rfl
  | none =>
    cases h2 : fuzzySubstringFind v2c (pyLower t) with
    | some c => rfl
    | none => rfl

/-- The per-date counts of the embedding mapper: for every date key of the
input, the tally of that date's topic list under `chooseEmbedding`. -/
theorem counts_embedding_char (sim : String → String → ℚ)
    (tbd : List (String × List String)) (cmap : List (String × List String)) (θ : ℚ)
    (d : String) :
    alookup ((map_topics_to_canonical_embedding sim tbd cmap θ).1) d =
      if d ∈ akeys tbd
      then some (tally (chooseEmbedding sim θ (akeys cmap)) ((alookup tbd d).getD []))
      else none := by
  rw [map_topics_to_canonical_embedding]
  simp only
  rw [fst_foldl_dates (embeddingStep_fst sim θ (akeys cmap)), sortedDates, List.foldl_map]
  have hfold :
      ((akeys tbd).insertionSort (fun a b => a ≤ b)).foldl
        (fun r d => dictInsert r d (tally (chooseEmbedding sim θ (akeys cmap))
          ((alookup tbd d).getD []))) [] =
      (((akeys tbd).insertionSort (fun a b => a ≤ b)).map
        (fun d => (d, tally (chooseEmbedding sim θ (akeys cmap)) ((alookup tbd d).getD [])))).foldl
        (fun m q => dictInsert m q.1 q.2) [] := by
    rw [List.foldl_map]
  rw [hfold, alookup_foldl_dictInsert_det]
  have hmem : (d ∈ (akeys tbd).insertionSort (fun a b => a ≤ b)) ↔ d ∈ akeys tbd :=
    (List.perm_insertionSort (fun a b => a ≤ b) (akeys tbd)).mem_iff
  by_cases hd : d ∈ akeys tbd
  · rw [if_pos (hmem.2 hd), if_pos hd]
  · rw [if_neg (fun hh => hd (hmem.1 hh)), if_neg hd, alookup]

/-- The per-date counts of the fuzzy mapper: for every date key of the input,
the tally of that date's topic list under `chooseFuzzy`. -/
theorem counts_fuzzy_char (tbd : List (String × List String))
    (cmap : List (String × List String)) (d : String) :
    alookup ((map_topics_to_canonical_fuzzy tbd cmap).1) d =
      if d ∈ akeys tbd
      then some (tally (chooseFuzzy (variationToCanonical cmap)) ((alookup tbd d).getD []))
      else none := by
  rw [map_topics_to_canonical_fuzzy]
  simp only
  rw [fst_foldl_dates (fuzzyStep_fst (variationToCanonical cmap) cmap), sortedDates,
    List.foldl_map]
  have hfold :
      ((akeys tbd).insertionSort (fun a b => a ≤ b)).foldl
        (fun r d => dictInsert r d (tally (chooseFuzzy (variationToCanonical cmap))
          ((alookup tbd d).getD []))) [] =
      (((akeys tbd).insertionSort (fun a b => a ≤ b)).map
        (fun d => (d, tally (chooseFuzzy (variationToCanonical cmap))
          ((alookup tbd d).getD [])))).foldl (fun m q => dictInsert m q.1 q.2) [] := by
    rw [List.foldl_map]
  rw [hfold, alookup_foldl_dictInsert_det]
  have hmem : (d ∈ (akeys tbd).insertionSort (fun a b => a ≤ b)) ↔ d ∈ akeys tbd :=
    (List.perm_insertionSort (fun a b => a ≤ b) (akeys tbd)).mem_iff
  by_cases hd : d ∈ akeys tbd
  · rw [if_pos (hmem.2 hd), if_pos hd]
  · rw [if_neg (fun hh => hd (hmem.1 hh)), if_neg hd, alookup]

/-! ### Argmax lemmas -/

theorem le_foldl_max_base (xs : List ℚ) : ∀ b : ℚ, b ≤ xs.foldl max b := by
  induction xs with
  | nil => intro b; simp
  | cons x rest ih =>
    intro b
    rw [List.foldl_cons]
    exact le_trans (le_max_left b x) (ih (max b x))

theorem le_foldl_max_mem (xs : List ℚ) : ∀ (b q : ℚ), q ∈ xs → q ≤ xs.foldl max b := by
  induction xs with
  | nil => intro b q hq; simp at hq
  | cons x rest ih =>
    intro b q hq
    rw [List.foldl_cons]
    rcases List.mem_cons.1 hq with h | h
    · subst h
      exact le_trans (le_max_right b q) (le_foldl_max_base rest (max b q))
    · exact ih (max b x) q h

theorem argmaxAux_spec (xs : List ℚ) : ∀ (i best : Nat) (bv : ℚ) (row : List ℚ),
    row.drop i = xs → best < row.length → row.getD best 0 = bv →
    argmaxAux xs i best bv < row.length ∧
      row.getD (argmaxAux xs i best bv) 0 = xs.foldl max bv := by
  induction xs with
  | nil =>
    intro i best bv row hdrop hb hgetd
    exact ⟨hb, by simpa using hgetd⟩
  | cons x rest ih =>
    intro i best bv row hdrop hb hgetd
    have hi : i < row.length := by
      by_contra hcon
      push_neg at hcon
      rw [List.drop_eq_nil_of_le hcon] at hdrop
      cases hdrop
    have hcons : x :: rest = row[i] :: row.drop (i + 1) := by
      rw [← hdrop]
      exact List.drop_eq_getElem_cons hi
    injection hcons with h1 h2
    have hdrop' : row.drop (i + 1) = rest := h2.symm
    have hx : row.getD i 0 = x := by
      rw [List.getD_eq_getElem?_getD, List.getElem?_eq_getElem hi]
      exact (Option.getD_some).trans h1.symm
    rw [argmaxAux]
    by_cases hlt : bv < x
    · rw [if_pos hlt]
      have hres := ih (i + 1) i x row hdrop' hi hx
      refine ⟨hres.1, ?_⟩
      rw [hres.2, List.foldl_cons, max_eq_right (le_of_lt hlt)]
    · rw [if_neg hlt]
      have hres := ih (i + 1) best bv row hdrop' hb hgetd
      refine ⟨hres.1, ?_⟩
      rw [hres.2, List.foldl_cons, max_eq_left (not_lt.1 hlt)]

theorem argmaxIdx_spec (row : List ℚ) (h : row ≠ []) :
    argmaxIdx row < row.length ∧ ∀ q ∈ row, q ≤ row.getD (argmaxIdx row) 0 := by
  cases row with
  | nil => exact absurd rfl h
  | cons x xs =>
    have hspec := argmaxAux_spec xs 1 0 x (x :: xs) rfl (by simp) rfl
    rw [argmaxIdx]
    refine ⟨hspec.1, ?_⟩
    intro q hq
    rw [hspec.2]
    rcases List.mem_cons.1 hq with h1 | h1
    · exact h1 ▸ le_foldl_max_base xs x
    · exact le_foldl_max_mem xs x q h1

/-- The best similarity returned by the argmax really is the maximum
similarity against all canonical topics. -/
theorem bestSim_is_max (sim : String → String → ℚ) (cs : List String) (t : String)
    (h : cs ≠ []) : ∀ c ∈ cs, sim t c ≤ bestSim sim cs t := by
  intro c hc
  have hrow : simRow sim cs t ≠ [] := by
    rw [simRow]
    simpa using h
  have hspec := argmaxIdx_spec (simRow sim cs t) hrow
  exact hspec.2 (sim t c) (List.mem_map_of_mem (sim t) hc)

theorem bestCanonical_mem (sim : String → String → ℚ) (cs : List String) (t : String)
    (h : cs ≠ []) : bestCanonical sim cs t ∈ cs := by
  have hrow : simRow sim cs t ≠ [] := by
    rw [simRow]
    simpa using h
  have hspec := argmaxIdx_spec (simRow sim cs t) hrow
  have hlen : argmaxIdx (simRow sim cs t) < cs.length := by
    have := hspec.1
    rwa [simRow, List.length_map] at this
  rw [bestCanonical, List.getD_eq_getElem?_getD, List.getElem?_eq_getElem hlen]
  exact List.getElem_mem _

/-! ### The unmapped dict of the embedding mapper -/

theorem alookup_foldl_embeddingStep_snd (sim : String → String → ℚ) (θ : ℚ)
    (cs : List String) (ts : List String) :
    ∀ (m : List (String × Nat)) (u : List (String × String)) (t : String),
      alookup ((ts.foldl (embeddingStep sim θ cs) (m, u)).2) t =
        if t ∈ ts ∧ bestSim sim cs t < θ
        then some ((alookup u t).getD (bestCanonical sim cs t))
        else alookup u t := by
  induction ts with
  | nil => intro m u t; simp
  | cons t0 rest ih =>
    intro m u t
    rw [List.foldl_cons]
    have heta : embeddingStep sim θ cs (m, u) t0 =
        ((embeddingStep sim θ cs (m, u) t0).1, (embeddingStep sim θ cs (m, u) t0).2) := rfl
    by_cases h0 : θ ≤ bestSim sim cs t0
    · have h2 : (embeddingStep sim θ cs (m, u) t0).2 = u := by
        rw [embeddingStep, if_pos h0]
      rw [heta, h2, ih]
      by_cases ht0 : t = t0
      · subst ht0
        have hnb : ¬ (bestSim sim cs t < θ) := not_lt.2 h0
        rw [if_neg (fun hc => hnb hc.2), if_neg (fun hc => hnb hc.2)]
      · have hcons : (t ∈ t0 :: rest ∧ bestSim sim cs t < θ) ↔
            (t ∈ rest ∧ bestSim sim cs t < θ) := by
          constructor
          · rintro ⟨hm, hb⟩
            rcases List.mem_cons.1 hm with hm | hm
            · exact absurd hm ht0
            · exact ⟨hm, hb⟩
          · rintro ⟨hm, hb⟩
            exact ⟨List.mem_cons_of_mem _ hm, hb⟩
        by_cases hc : t ∈ rest ∧ bestSim sim cs t < θ
        · rw [if_pos hc, if_pos (hcons.2 hc)]
        · rw [if_neg hc, if_neg (fun hh => hc (hcons.1 hh))]
    · have h2 : (embeddingStep sim θ cs (m, u) t0).2 =
          (match alookup u t0 with
            | some _ => u
            | none => dictInsert u t0 (bestCanonical sim cs t0)) := by
        rw [embeddingStep, if_neg h0]
      rw [heta, h2, ih]
      by_cases ht0 : t = t0
      · subst ht0
        have hb : bestSim sim cs t < θ := not_le.1 h0
        have hrhs : (t ∈ t :: rest ∧ bestSim sim cs t < θ) := ⟨List.mem_cons_self t rest, hb⟩
        cases hu : alookup u t with
        | some v =>
          simp only [hu]
          by_cases hr : t ∈ rest ∧ bestSim sim cs t < θ
          · rw [if_pos hr, if_pos hrhs]
          · rw [if_neg hr, if_pos hrhs]
            simp
        | none =>
          simp only [hu]
          rw [alookup_dictInsert_self]
          by_cases hr : t ∈ rest ∧ bestSim sim cs t < θ
          · rw [if_pos hr, if_pos hrhs]
            simp
          · rw [if_neg hr, if_pos hrhs]
            simp
      · have hul : alookup (match alookup u t0 with
            | some _ => u
            | none => dictInsert u t0 (bestCanonical sim cs t0)) t = alookup u t := by
          cases hu : alookup u t0 with
          | some v => rfl
          | none => exact alookup_dictInsert_ne _ _ _ _ ht0
        rw [hul]
        have hcons : (t ∈ t0 :: rest ∧ bestSim sim cs t < θ) ↔
            (t ∈ rest ∧ bestSim sim cs t < θ) := by
          constructor
          · rintro ⟨hm, hb⟩
            rcases List.mem_cons.1 hm with hm | hm
            · exact absurd hm ht0
            · exact ⟨hm, hb⟩
          · rintro ⟨hm, hb⟩
            exact ⟨List.mem_cons_of_mem _ hm, hb⟩
        by_cases hc : t ∈ rest ∧ bestSim sim cs t < θ
        · rw [if_pos hc, if_pos (hcons.2 hc)]
        · rw [if_neg hc, if_neg (fun hh => hc (hcons.1 hh))]

theorem sortedDates_single (d : String) (ts : List String) :
    sortedDates [(d, ts)] ([] : List String) = [(d, ts)] := by
  simp [sortedDates, akeys, alookup, List.insertionSort, List.orderedInsert]

/-! ### Helper for order independence -/

theorem alookup_append_mid {α : Type} (pre post : List (String × α)) (d0 d : String)
    (v : α) :
    alookup (pre ++ (d0, v) :: post) d =
      match alookup pre d with
      | some w => some w
      | none => if d0 = d then some v else alookup post d := by
  rw [alookup_append]
  cases alookup pre d with
  | some w => rfl
  | none => rfl

theorem tally_lookup_mid (ch : String → String) (pre post : List (String × List String))
    (d0 : String) (ts ts' : List String) (hperm : ts.Perm ts') (d c : String) :
    alookup (tally ch ((alookup (pre ++ (d0, ts) :: post) d).getD [])) c =
      alookup (tally ch ((alookup (pre ++ (d0, ts') :: post) d).getD [])) c := by
  rw [alookup_append_mid, alookup_append_mid]
  cases alookup pre d with
  | some w => rfl
  | none =>
    by_cases hd : d0 = d
    · rw [if_pos hd, if_pos hd]
      exact alookup_tally_perm ch ts ts' hperm c
    · rw [if_neg hd, if_neg hd]

theorem akeys_append_mid {α : Type} (pre post : List (String × α)) (d0 : String)
    (v v' : α) :
    akeys (pre ++ (d0, v) :: post) = akeys (pre ++ (d0, v') :: post) := by
  simp [akeys]

/-! ### Claim theorems, first group -/

/-- C1: the spec states that `normalize_topic` is idempotent
(`normalize(normalize(x)) == normalize(x)` for every input), but the code is
not: on the input `"delivery the guy"` the article-removal rewrite leaves a
double space (`"delivery  guy"`), so the later single-space literal pattern
`\bdelivery guy\b` does not match during that run; the final whitespace
collapse then produces `"delivery guy"`, which a second application maps to
`"delivery partner"`. -/
theorem normalize_topic_not_idempotent_at_delivery_the_guy :
    normalize_topic (normalize_topic ("delivery the guy")) ≠
        normalize_topic ("delivery the guy")
    ∧ normalize_topic ("delivery the guy") = ("delivery guy")
    ∧ normalize_topic (normalize_topic ("delivery the guy")) = ("delivery partner") :=
  ⟨by decide, by decide, by decide⟩

/-- C9: on empty input both stages return empty structures: clustering an
empty topic list yields the empty mapping (for any labelling and any cluster
namer), and the fuzzy mapper applied to an empty topics-by-date dict and an
empty canonical mapping yields empty counts and an empty unmapped dict. -/
theorem empty_input_empty_output :
    (∀ (labels : String → Int) (nameOf : List String → String),
      cluster_topics labels nameOf [] = [])
    ∧ map_topics_to_canonical_fuzzy [] [] = ([], []) := by
  constructor
  · intro labels nameOf
    rfl
  · rfl

/-- C5: fuzzy-mapper count conservation.  For a single date with `N` raw
topics, the per-canonical counts produced by the fuzzy mapper for that date
sum to `N`: every raw occurrence is counted under exactly one canonical
bucket. -/
theorem map_fuzzy_count_conservation (d : String) (ts : List String)
    (cmap : List (String × List String)) :
    ∃ cnts, alookup ((map_topics_to_canonical_fuzzy [(d, ts)] cmap).1) d = some cnts
      ∧ sumValues cnts = ts.length := by
  refine ⟨tally (chooseFuzzy (variationToCanonical cmap)) ts, ?_, sumValues_tally _ _⟩
  rw [counts_fuzzy_char]
  have hmem : d ∈ akeys [(d, ts)] := by simp [akeys]
  rw [if_pos hmem]
  have hl : alookup [(d, ts)] d = some ts := by simp [alookup]
  rw [hl]
  rfl

/-- C6: per-date counts are order independent for both mapping strategies:
permuting one date's raw topic list changes neither that date's
canonical-to-count mapping nor any other date's, for the embedding mapper
and for the fuzzy mapper alike. -/
theorem mapper_counts_order_independent
    (sim : String → String → ℚ) (θ : ℚ) (cmap : List (String × List String))
    (pre post : List (String × List String)) (d0 : String) (ts ts' : List String)
    (hperm : ts.Perm ts') (d c : String) :
    alookup2 ((map_topics_to_canonical_embedding sim (pre ++ (d0, ts) :: post) cmap θ).1) d c =
      alookup2 ((map_topics_to_canonical_embedding sim (pre ++ (d0, ts') :: post) cmap θ).1) d c
    ∧ alookup2 ((map_topics_to_canonical_fuzzy (pre ++ (d0, ts) :: post) cmap).1) d c =
      alookup2 ((map_topics_to_canonical_fuzzy (pre ++ (d0, ts') :: post) cmap).1) d c := by
  have hkeys := akeys_append_mid pre post d0 ts ts'
  constructor
  · rw [alookup2, alookup2, counts_embedding_char, counts_embedding_char, hkeys]
    by_cases hd : d ∈ akeys (pre ++ (d0, ts') :: post)
    · rw [if_pos hd, if_pos hd]
      exact tally_lookup_mid _ pre post d0 ts ts' hperm d c
    · rw [if_neg hd, if_neg hd]
  · rw [alookup2, alookup2, counts_fuzzy_char, counts_fuzzy_char, hkeys]
    by_cases hd : d ∈ akeys (pre ++ (d0, ts') :: post)
    · rw [if_pos hd, if_pos hd]
      exact tally_lookup_mid _ pre post d0 ts ts' hperm d c
    · rw [if_neg hd, if_neg hd]

/-- Witness for C6 at a concrete permuted input. -/
theorem mapper_counts_order_independent_witness :
    (([ "x", "y" ] : List String).Perm [ "y", "x" ])
    ∧ (alookup2 ((map_topics_to_canonical_embedding (fun _ _ => 0)
          ([] ++ ("2024-01-01", [ "x", "y" ]) :: []) [("A", [ "a" ])] 0).1) ("2024-01-01") ("A") =
        alookup2 ((map_topics_to_canonical_embedding (fun _ _ => 0)
          ([] ++ ("2024-01-01", [ "y", "x" ]) :: []) [("A", [ "a" ])] 0).1) ("2024-01-01") ("A")
      ∧ alookup2 ((map_topics_to_canonical_fuzzy
          ([] ++ ("2024-01-01", [ "x", "y" ]) :: []) [("A", [ "a" ])]).1) ("2024-01-01") ("A") =
        alookup2 ((map_topics_to_canonical_fuzzy
          ([] ++ ("2024-01-01", [ "y", "x" ]) :: []) [("A", [ "a" ])]).1) ("2024-01-01") ("A")) :=
  ⟨by decide,
    mapper_counts_order_independent (fun _ _ => 0) 0 [("A", [ "a" ])] [] [] ("2024-01-01")
      [ "x", "y" ] [ "y", "x" ] (by decide) ("2024-01-01") ("A")⟩

/-! ### Claim C4: threshold boundary of the embedding mapper -/

theorem embedding_unmapped_single (sim : String → String → ℚ) (θ : ℚ) (d : String)
    (ts : List String) (cmap : List (String × List String)) (t : String) :
    alookup ((map_topics_to_canonical_embedding sim [(d, ts)] cmap θ).2) t =
      if t ∈ ts ∧ bestSim sim (akeys cmap) t < θ
      then some (bestCanonical sim (akeys cmap) t)
      else none := by
  rw [map_topics_to_canonical_embedding]
  simp only
  rw [sortedDates_single, List.foldl_cons, List.foldl_nil]
  simp only
  rw [alookup_foldl_embeddingStep_snd]
  by_cases hc : t ∈ ts ∧ bestSim sim (akeys cmap) t < θ
  · rw [if_pos hc, if_pos hc]
    rfl
  · rw [if_neg hc, if_neg hc]
    rfl

/-- C4: threshold boundary of the embedding-based mapper.  With the
similarity function abstracted as `sim`, for any topic `t` of the date's
list: the argmax similarity really is the best similarity against every
canonical, the argmax canonical is one of the canonicals, and (a) when the
best similarity equals the threshold exactly, the topic is assigned to the
argmax canonical (the comparison is inclusive) and is not recorded as
unmapped; (b) when the best similarity is strictly below the threshold, the
topic is counted under its own name and is recorded in the unmapped dict
with the argmax canonical as its suggestion. -/
theorem embedding_threshold_boundary
    (sim : String → String → ℚ) (θ : ℚ) (cmap : List (String × List String))
    (d : String) (ts : List String) (t : String)
    (hcs : akeys cmap ≠ []) (ht : t ∈ ts) :
    (∀ c ∈ akeys cmap, sim t c ≤ bestSim sim (akeys cmap) t)
    ∧ bestCanonical sim (akeys cmap) t ∈ akeys cmap
    ∧ (bestSim sim (akeys cmap) t = θ →
        chooseEmbedding sim θ (akeys cmap) t = bestCanonical sim (akeys cmap) t
        ∧ (∃ n, alookup2 ((map_topics_to_canonical_embedding sim [(d, ts)] cmap θ).1) d
              (bestCanonical sim (akeys cmap) t) = some n ∧ 1 ≤ n)
        ∧ alookup ((map_topics_to_canonical_embedding sim [(d, ts)] cmap θ).2) t = none)
    ∧ (bestSim sim (akeys cmap) t < θ →
        chooseEmbedding sim θ (akeys cmap) t = t
        ∧ (∃ n, alookup2 ((map_topics_to_canonical_embedding sim [(d, ts)] cmap θ).1) d
              t = some n ∧ 1 ≤ n)
        ∧ alookup ((map_topics_to_canonical_embedding sim [(d, ts)] cmap θ).2) t =
            some (bestCanonical sim (akeys cmap) t)) := by
  have hcounts : ∀ c, alookup2 ((map_topics_to_canonical_embedding sim [(d, ts)] cmap θ).1) d c =
      alookup (tally (chooseEmbedding sim θ (akeys cmap)) ts) c := by
    intro c
    rw [alookup2, counts_embedding_char]
    have hmem : d ∈ akeys [(d, ts)] := by simp [akeys]
    rw [if_pos hmem]
    have hl : alookup [(d, ts)] d = some ts := by simp [alookup]
    rw [hl]
    rfl
  refine ⟨bestSim_is_max sim (akeys cmap) t hcs, bestCanonical_mem sim (akeys cmap) t hcs,
    ?_, ?_⟩
  · intro heq
    have hle : θ ≤ bestSim sim (akeys cmap) t := le_of_eq heq.symm
    have hch : chooseEmbedding sim θ (akeys cmap) t = bestCanonical sim (akeys cmap) t := by
      rw [chooseEmbedding, if_pos hle]
    refine ⟨hch, ?_, ?_⟩
    · have hcnt : 0 < (ts.map (chooseEmbedding sim θ (akeys cmap))).count
          (bestCanonical sim (akeys cmap) t) := by
        rw [List.count_pos_iff]
        exact hch ▸ List.mem_map_of_mem _ ht
      refine ⟨(ts.map (chooseEmbedding sim θ (akeys cmap))).count
          (bestCanonical sim (akeys cmap) t), ?_, hcnt⟩
      rw [hcounts, alookup_tally, if_neg (by omega)]
    · rw [embedding_unmapped_single,
        if_neg (fun hh => absurd hh.2 (not_lt.2 hle))]
  · intro hlt
    have hch : chooseEmbedding sim θ (akeys cmap) t = t := by
      rw [chooseEmbedding, if_neg (not_le.2 hlt)]
    refine ⟨hch, ?_, ?_⟩
    · have hcnt : 0 < (ts.map (chooseEmbedding sim θ (akeys cmap))).count t := by
        rw [List.count_pos_iff]
        exact hch ▸ List.mem_map_of_mem _ ht
      refine ⟨(ts.map (chooseEmbedding sim θ (akeys cmap))).count t, ?_, hcnt⟩
      rw [hcounts, alookup_tally, if_neg (by omega)]
    · rw [embedding_unmapped_single, if_pos ⟨ht, hlt⟩]

/-- Witness for C4 at a concrete input: one canonical, one topic whose best
similarity sits exactly at the threshold. -/
theorem embedding_threshold_boundary_witness :
    (akeys [("A", [ "a" ])] ≠ [] ∧ ("x" : String) ∈ [ "x" ])
    ∧ ((∀ c ∈ akeys [("A", [ "a" ])],
          (fun (_ : String) (_ : String) => (7 : ℚ)) ("x") c ≤
            bestSim (fun _ _ => (7 : ℚ)) (akeys [("A", [ "a" ])]) ("x"))
      ∧ bestCanonical (fun _ _ => (7 : ℚ)) (akeys [("A", [ "a" ])]) ("x") ∈
          akeys [("A", [ "a" ])]
      ∧ (bestSim (fun _ _ => (7 : ℚ)) (akeys [("A", [ "a" ])]) ("x") = 7 →
          chooseEmbedding (fun _ _ => (7 : ℚ)) 7 (akeys [("A", [ "a" ])]) ("x") =
            bestCanonical (fun _ _ => (7 : ℚ)) (akeys [("A", [ "a" ])]) ("x")
          ∧ (∃ n, alookup2 ((map_topics_to_canonical_embedding (fun _ _ => (7 : ℚ))
                [("2024-01-01", [ "x" ])] [("A", [ "a" ])] 7).1) ("2024-01-01")
                (bestCanonical (fun _ _ => (7 : ℚ)) (akeys [("A", [ "a" ])]) ("x")) = some n
              ∧ 1 ≤ n)
          ∧ alookup ((map_topics_to_canonical_embedding (fun _ _ => (7 : ℚ))
                [("2024-01-01", [ "x" ])] [("A", [ "a" ])] 7).2) ("x") = none)
      ∧ (bestSim (fun _ _ => (7 : ℚ)) (akeys [("A", [ "a" ])]) ("x") < 7 →
          chooseEmbedding (fun _ _ => (7 : ℚ)) 7 (akeys [("A", [ "a" ])]) ("x") = ("x")
          ∧ (∃ n, alookup2 ((map_topics_to_canonical_embedding (fun _ _ => (7 : ℚ))
                [("2024-01-01", [ "x" ])] [("A", [ "a" ])] 7).1) ("2024-01-01")
                ("x") = some n ∧ 1 ≤ n)
          ∧ alookup ((map_topics_to_canonical_embedding (fun _ _ => (7 : ℚ))
                [("2024-01-01", [ "x" ])] [("A", [ "a" ])] 7).2) ("x") =
              some (bestCanonical (fun _ _ => (7 : ℚ)) (akeys [("A", [ "a" ])]) ("x")))) :=
  ⟨⟨by decide, by decide⟩,
    embedding_threshold_boundary (fun _ _ => (7 : ℚ)) 7 [("A", [ "a" ])] ("2024-01-01")
      [ "x" ] ("x") (by decide) (by decide)⟩

/-! ### Claim C2: the clusterer never drops topics -/

theorem dedup_dict_inv (ts : List String) :
    ∀ m : List (String × String), (∀ p ∈ m, pyLower p.2 = p.1) →
      ∀ p ∈ ts.foldl (fun m t => dictInsert m (pyLower t) t) m, pyLower p.2 = p.1 := by
  induction ts with
  | nil => intro m hm p hp; exact hm p hp
  | cons t rest ih =>
    intro m hm p hp
    rw [List.foldl_cons] at hp
    refine ih (dictInsert m (pyLower t) t) ?_ p hp
    intro q hq
    rcases mem_dictInsert _ _ _ _ hq with h | h
    · exact hm q h
    · rw [h]

theorem dedup_dict_keys_nodup (ts : List String) :
    ∀ m : List (String × String), (akeys m).Nodup →
      (akeys (ts.foldl (fun m t => dictInsert m (pyLower t) t) m)).Nodup := by
  induction ts with
  | nil => intro m hm; exact hm
  | cons t rest ih =>
    intro m hm
    rw [List.foldl_cons]
    exact ih _ (nodup_akeys_dictInsert _ _ _ hm)

/-- The case-insensitive deduplication keeps pairwise distinct
representatives. -/
theorem dedupLastCasing_nodup (ts : List String) : (dedupLastCasing ts).Nodup := by
  rw [dedupLastCasing]
  have hinv := dedup_dict_inv ts [] (by intro p hp; simp at hp)
  have hknd := dedup_dict_keys_nodup ts [] (by simp [akeys])
  set m := ts.foldl (fun m t => dictInsert m (pyLower t) t) [] with hm
  have hcong : akeys m = (avalues m).map pyLower := by
    rw [akeys, avalues, List.map_map]
    exact List.map_congr_left (fun p hp => (hinv p hp).symm)
  rw [hcong] at hknd
  exact List.Nodup.of_map pyLower hknd

theorem exists_mem_appendAt (x : String) (k : Int) (u : String) :
    ∀ cl : List (Int × List String), (∃ p ∈ cl, x ∈ p.2) →
      ∃ p ∈ appendAt cl k u, x ∈ p.2 := by
  intro cl
  induction cl with
  | nil => rintro ⟨p, hp, _⟩; simp at hp
  | cons q rest ih =>
    rintro ⟨p, hp, hx⟩
    by_cases hq : q.1 = k
    · rcases List.mem_cons.1 hp with h | h
      · refine ⟨(k, (alookup (q :: rest) k).getD [] ++ [u]), ?_, ?_⟩
        · rw [appendAt, dictInsert, if_pos hq]
          exact List.mem_cons_self _ _
        · have : alookup (q :: rest) k = some q.2 := by
            rw [alookup, if_pos hq]
          rw [this]
          simp only [Option.getD_some]
          exact List.mem_append_left _ (h ▸ hx)
      · refine ⟨p, ?_, hx⟩
        rw [appendAt, dictInsert, if_pos hq]
        exact List.mem_cons_of_mem _ h
    · rcases List.mem_cons.1 hp with h | h
      · refine ⟨p, ?_, hx⟩
        rw [appendAt, alookup, if_neg hq, dictInsert, if_neg hq]
        exact h ▸ List.mem_cons_self _ _
      · rcases ih ⟨p, h, hx⟩ with ⟨p', hp', hx'⟩
        refine ⟨p', ?_, hx'⟩
        rw [appendAt, alookup, if_neg hq, dictInsert, if_neg hq]
        exact List.mem_cons_of_mem _ hp'

theorem self_mem_appendAt (k : Int) (u : String) (cl : List (Int × List String)) :
    ∃ p ∈ appendAt cl k u, u ∈ p.2 := by
  refine ⟨(k, (alookup cl k).getD [] ++ [u]), ?_, List.mem_append_right _ (List.mem_singleton_self u)⟩
  exact alookup_mem _ _ _ (alookup_dictInsert_self cl k _)

theorem groupClusters_entries (labels : String → Int) (uniq0 : List String) :
    ∀ (uniq : List String) (cl0 : List (Int × List String)),
      (∀ t ∈ uniq, t ∈ uniq0) →
      (∀ p ∈ cl0, p.2 ≠ [] ∧ p.1 ≠ -1 ∧ ∀ x ∈ p.2, labels x = p.1 ∧ x ∈ uniq0) →
      ∀ p ∈ uniq.foldl
          (fun cl t => if labels t = -1 then cl else appendAt cl (labels t) t) cl0,
        p.2 ≠ [] ∧ p.1 ≠ -1 ∧ ∀ x ∈ p.2, labels x = p.1 ∧ x ∈ uniq0 := by
  intro uniq
  induction uniq with
  | nil => intro cl0 _ hcl p hp; exact hcl p hp
  | cons t rest ih =>
    intro cl0 hsub hcl p hp
    rw [List.foldl_cons] at hp
    by_cases hl : labels t = -1
    · rw [if_pos hl] at hp
      exact ih cl0 (fun x hx => hsub x (List.mem_cons_of_mem _ hx)) hcl p hp
    · rw [if_neg hl] at hp
      refine ih _ (fun x hx => hsub x (List.mem_cons_of_mem _ hx)) ?_ p hp
      intro q hq
      rcases mem_dictInsert _ _ _ _ hq with h | h
      · exact hcl q h
      · subst h
        refine ⟨by simp, hl, ?_⟩
        intro x hx
        rcases List.mem_append.1 hx with hx | hx
        · cases hlk : alookup cl0 (labels t) with
          | none => rw [hlk] at hx; simp at hx
          | some v =>
            rw [hlk] at hx
            simp only [Option.getD_some] at hx
            have hmem := alookup_mem _ _ _ hlk
            exact (hcl _ hmem).2.2 x hx
        · rw [List.mem_singleton.1 hx]
          exact ⟨rfl, hsub t (List.mem_cons_self _ _)⟩

theorem groupClusters_keys_nodup (labels : String → Int) :
    ∀ (uniq : List String) (cl0 : List (Int × List String)), (akeys cl0).Nodup →
      (akeys (uniq.foldl
        (fun cl t => if labels t = -1 then cl else appendAt cl (labels t) t) cl0)).Nodup := by
  intro uniq
  induction uniq with
  | nil => intro cl0 h; exact h
  | cons t rest ih =>
    intro cl0 h
    rw [List.foldl_cons]
    by_cases hl : labels t = -1
    · rw [if_pos hl]; exact ih cl0 h
    · rw [if_neg hl]
      exact ih _ (nodup_akeys_dictInsert _ _ _ h)

theorem groupClusters_covers (labels : String → Int) :
    ∀ (uniq : List String) (cl0 : List (Int × List String)) (t : String),
      labels t ≠ -1 → (t ∈ uniq ∨ ∃ p ∈ cl0, t ∈ p.2) →
      ∃ p ∈ uniq.foldl
          (fun cl t => if labels t = -1 then cl else appendAt cl (labels t) t) cl0,
        t ∈ p.2 := by
  intro uniq
  induction uniq with
  | nil =>
    intro cl0 t _ hin
    rcases hin with h | h
    · simp at h
    · exact h
  | cons t0 rest ih =>
    intro cl0 t hlt hin
    rw [List.foldl_cons]
    by_cases hl : labels t0 = -1
    · rw [if_pos hl]
      rcases hin with h | h
      · rcases List.mem_cons.1 h with h | h
        · exact absurd (h ▸ hl) hlt
        · exact ih cl0 t hlt (Or.inl h)
      · exact ih cl0 t hlt (Or.inr h)
    · rw [if_neg hl]
      rcases hin with h | h
      · rcases List.mem_cons.1 h with h | h
        · subst h
          exact ih _ t hlt (Or.inr (self_mem_appendAt (labels t) t cl0))
        · exact ih _ t hlt (Or.inl h)
      · exact ih _ t hlt (Or.inr (exists_mem_appendAt t (labels t0) t0 cl0 h))

theorem mem_foldl_dictInsert_pairs {κ α : Type} [DecidableEq κ] :
    ∀ (P : List (κ × α)) (m0 : List (κ × α)) (q : κ × α),
      q ∈ P.foldl (fun m kv => dictInsert m kv.1 kv.2) m0 → q ∈ m0 ∨ q ∈ P := by
  intro P
  induction P with
  | nil => intro m0 q hq; exact Or.inl hq
  | cons kv rest ih =>
    intro m0 q hq
    rw [List.foldl_cons] at hq
    rcases ih _ q hq with h | h
    · rcases mem_dictInsert _ _ _ _ h with h1 | h1
      · exact Or.inl h1
      · right
        rw [h1]
        exact List.mem_cons_self _ _
    · exact Or.inr (List.mem_cons_of_mem _ h)

theorem mem_foldl_dictInsert_selves :
    ∀ (L : List String) (m0 : List (String × List String)) (q : String × List String),
      q ∈ L.foldl (fun m t => dictInsert m t [t]) m0 →
      q ∈ m0 ∨ ∃ u ∈ L, q = (u, [u]) := by
  intro L
  induction L with
  | nil => intro m0 q hq; exact Or.inl hq
  | cons u rest ih =>
    intro m0 q hq
    rw [List.foldl_cons] at hq
    rcases ih _ q hq with h | h
    · rcases mem_dictInsert _ _ _ _ h with h1 | h1
      · exact Or.inl h1
      · exact Or.inr ⟨u, List.mem_cons_self _ _, h1⟩
    · rcases h with ⟨u', hu', hq'⟩
      exact Or.inr ⟨u', List.mem_cons_of_mem _ hu', hq'⟩

/-- C2: the clusterer never drops topics.  For any HDBSCAN labelling and any
cluster namer that picks a member of its cluster (as the medoid selection of
`_generate_cluster_name` does), the union of all variation lists of
`cluster_topics` equals the case-insensitively deduplicated input set, and
every noise topic (label `-1`) appears as its own canonical entry whose sole
variation is itself. -/
theorem cluster_topics_never_drops (labels : String → Int) (nameOf : List String → String)
    (topics : List String) (hname : ∀ l : List String, l ≠ [] → nameOf l ∈ l) :
    (∀ t, t ∈ (avalues (cluster_topics labels nameOf topics)).flatten ↔
        t ∈ dedupLastCasing topics)
    ∧ ∀ t ∈ dedupLastCasing topics, labels t = -1 →
        alookup (cluster_topics labels nameOf topics) t = some [t] := by
  by_cases htop : topics = []
  · subst htop
    constructor
    · intro t
      constructor
      · intro h
        simp [cluster_topics, avalues] at h
      · intro h
        simp [dedupLastCasing, avalues] at h
    · intro t ht
      simp [dedupLastCasing, avalues] at ht
  · have hclfold : groupClusters labels (dedupLastCasing topics) =
        (dedupLastCasing topics).foldl
          (fun cl t => if labels t = -1 then cl else appendAt cl (labels t) t) [] := rfl
    have hct : cluster_topics labels nameOf topics =
        ((dedupLastCasing topics).filter (fun t => labels t = -1)).foldl
          (fun m t => dictInsert m t [t])
          ((groupClusters labels (dedupLastCasing topics)).foldl
            (fun m kv => dictInsert m (nameOf kv.2) kv.2) []) := by
      rw [cluster_topics, if_neg htop]
    have hG1 : ∀ p ∈ groupClusters labels (dedupLastCasing topics),
        p.2 ≠ [] ∧ p.1 ≠ -1 ∧
          ∀ x ∈ p.2, labels x = p.1 ∧ x ∈ dedupLastCasing topics := by
      rw [hclfold]
      exact groupClusters_entries labels (dedupLastCasing topics) (dedupLastCasing topics) []
        (fun t ht => ht) (by intro p hp; simp at hp)
    have hkeysnd : (akeys (groupClusters labels (dedupLastCasing topics))).Nodup := by
      rw [hclfold]
      exact groupClusters_keys_nodup labels (dedupLastCasing topics) [] (by simp [akeys])
    have hnamemem : ∀ p ∈ groupClusters labels (dedupLastCasing topics),
        nameOf p.2 ∈ p.2 := fun p hp => hname p.2 (hG1 p hp).1
    have hlabelname : ∀ p ∈ groupClusters labels (dedupLastCasing topics),
        p.1 = labels (nameOf p.2) :=
      fun p hp => ((hG1 p hp).2.2 (nameOf p.2) (hnamemem p hp)).1.symm
    have hnamesnd : ((groupClusters labels (dedupLastCasing topics)).map
        (fun p => nameOf p.2)).Nodup := by
      have hmapeq : akeys (groupClusters labels (dedupLastCasing topics)) =
          ((groupClusters labels (dedupLastCasing topics)).map
            (fun p => nameOf p.2)).map labels := by
        rw [akeys, List.map_map]
        exact List.map_congr_left hlabelname
      rw [hmapeq] at hkeysnd
      exact List.Nodup.of_map labels hkeysnd
    have hpairs : (groupClusters labels (dedupLastCasing topics)).foldl
        (fun m kv => dictInsert m (nameOf kv.2) kv.2) [] =
        ((groupClusters labels (dedupLastCasing topics)).map
          (fun p => (nameOf p.2, p.2))).foldl (fun m q => dictInsert m q.1 q.2) [] := by
      rw [List.foldl_map]
    have hbaselookup : ∀ p ∈ groupClusters labels (dedupLastCasing topics),
        alookup ((groupClusters labels (dedupLastCasing topics)).foldl
          (fun m kv => dictInsert m (nameOf kv.2) kv.2) []) (nameOf p.2) = some p.2 := by
      intro p hp
      rw [hpairs, alookup_foldl_dictInsert]
      have hknd2 : (akeys (((groupClusters labels (dedupLastCasing topics)).map
          (fun p => (nameOf p.2, p.2))).reverse)).Nodup := by
        rw [akeys, List.map_reverse]
        refine List.nodup_reverse.2 ?_
        rw [List.map_map]
        exact hnamesnd
      have hmem2 : (nameOf p.2, p.2) ∈ ((groupClusters labels (dedupLastCasing topics)).map
          (fun p => (nameOf p.2, p.2))).reverse :=
        List.mem_reverse.2 (List.mem_map_of_mem _ hp)
      rw [alookup_eq_of_mem_nodup _ _ _ hknd2 hmem2]
    have hfinal : ∀ k, alookup (cluster_topics labels nameOf topics) k =
        if k ∈ (dedupLastCasing topics).filter (fun t => labels t = -1)
        then some [k]
        else alookup ((groupClusters labels (dedupLastCasing topics)).foldl
          (fun m kv => dictInsert m (nameOf kv.2) kv.2) []) k := by
      intro k
      rw [hct]
      have hm : ((dedupLastCasing topics).filter (fun t => labels t = -1)).foldl
          (fun m t => dictInsert m t [t])
          ((groupClusters labels (dedupLastCasing topics)).foldl
            (fun m kv => dictInsert m (nameOf kv.2) kv.2) []) =
          (((dedupLastCasing topics).filter (fun t => labels t = -1)).map
            (fun u => (u, [u]))).foldl (fun m q => dictInsert m q.1 q.2)
          ((groupClusters labels (dedupLastCasing topics)).foldl
            (fun m kv => dictInsert m (nameOf kv.2) kv.2) []) := by
        rw [List.foldl_map]
      rw [hm, alookup_foldl_dictInsert_det]
    have hpartb : ∀ t ∈ dedupLastCasing topics, labels t = -1 →
        alookup (cluster_topics labels nameOf topics) t = some [t] := by
      intro t ht hlt
      rw [hfinal t, if_pos (List.mem_filter.2 ⟨ht, by simp [hlt]⟩)]
    refine ⟨?_, hpartb⟩
    intro t
    constructor
    · intro h
      obtain ⟨l, hl, htl⟩ := List.mem_flatten.1 h
      obtain ⟨q, hq, hql⟩ := List.mem_map.1 hl
      rw [hct] at hq
      rcases mem_foldl_dictInsert_selves _ _ _ hq with h1 | h1
      · rw [hpairs] at h1
        rcases mem_foldl_dictInsert_pairs _ _ _ h1 with h2 | h2
        · simp at h2
        · obtain ⟨p, hp, hqp⟩ := List.mem_map.1 h2
          have hq2 : q.2 = p.2 := by rw [← hqp]
          rw [← hql] at htl
          rw [hq2] at htl
          exact ((hG1 p hp).2.2 t htl).2
      · obtain ⟨u, hu, hqu⟩ := h1
        rw [← hql] at htl
        rw [hqu] at htl
        simp only [List.mem_singleton] at htl
        exact htl ▸ (List.mem_filter.1 hu).1
    · intro ht
      by_cases hlt : labels t = -1
      · have hlk := hpartb t ht hlt
        have hmem := alookup_mem _ _ _ hlk
        exact List.mem_flatten.2 ⟨[t], List.mem_map_of_mem Prod.snd hmem,
          List.mem_singleton_self t⟩
      · have hcov : ∃ p ∈ groupClusters labels (dedupLastCasing topics), t ∈ p.2 := by
          rw [hclfold]
          exact groupClusters_covers labels (dedupLastCasing topics) [] t hlt (Or.inl ht)
        obtain ⟨p, hp, htp⟩ := hcov
        have hnn : nameOf p.2 ∉ (dedupLastCasing topics).filter (fun t => labels t = -1) := by
          intro hmem
          have h1 : labels (nameOf p.2) = -1 := by
            have := (List.mem_filter.1 hmem).2
            simpa using this
          exact (hG1 p hp).2.1 ((hlabelname p hp).trans h1)
        have hlk : alookup (cluster_topics labels nameOf topics) (nameOf p.2) = some p.2 := by
          rw [hfinal, if_neg hnn, hbaselookup p hp]
        exact List.mem_flatten.2 ⟨p.2, List.mem_map_of_mem Prod.snd (alookup_mem _ _ _ hlk), htp⟩

/-- Witness for C2 at a concrete labelling and namer. -/
theorem cluster_topics_never_drops_witness :
    (∀ l : List String, l ≠ [] → (fun l : List String => l.headD ("")) l ∈ l)
    ∧ ((∀ t, t ∈ (avalues (cluster_topics
          (fun t => if t = ("app") then -1 else 0)
          (fun l : List String => l.headD (""))
          [ "cold food", "food cold", "app" ])).flatten ↔
        t ∈ dedupLastCasing [ "cold food", "food cold", "app" ])
      ∧ ∀ t ∈ dedupLastCasing [ "cold food", "food cold", "app" ],
          (fun t => if t = ("app") then -1 else 0) t = -1 →
          alookup (cluster_topics (fun t => if t = ("app") then -1 else 0)
            (fun l : List String => l.headD (""))
            [ "cold food", "food cold", "app" ]) t = some [t]) := by
  have hname : ∀ l : List String, l ≠ [] → (fun l : List String => l.headD ("")) l ∈ l := by
    intro l hl
    cases l with
    | nil => exact absurd rfl hl
    | cons a rest => exact List.mem_cons_self a rest
  exact ⟨hname, cluster_topics_never_drops (fun t => if t = ("app") then -1 else 0)
    (fun l : List String => l.headD ("")) [ "cold food", "food cold", "app" ] hname⟩

/-! ### Claim C3: bucket coverage of the heuristic consolidator -/

theorem contains_eq_decide_mem (l : List String) (t : String) :
    l.contains t = decide (t ∈ l) := by
  simp [List.contains]

theorem rule_names_nodup : (akeys consolidation_rules).Nodup := by decide

theorem rule_names_match :
    ∀ n ∈ akeys consolidation_rules, matchesAnyRule n = true := by decide

theorem heuristic_base_eq (ts : List String) :
    ∀ (R : List (String × List String)) (m0 : List (String × List String)),
      (akeys R).Nodup → (∀ k ∈ akeys m0, k ∉ akeys R) →
      R.foldl (fun m rule =>
        if ts.filter (fun t => matchesRule rule.2 t) = [] then m
        else dictInsert m rule.1 (ts.filter (fun t => matchesRule rule.2 t))) m0 =
      m0 ++ R.filterMap (fun rule =>
        if ts.filter (fun t => matchesRule rule.2 t) = [] then none
        else some (rule.1, ts.filter (fun t => matchesRule rule.2 t))) := by
  intro R
  induction R with
  | nil => intro m0 _ _; simp
  | cons r rest ih =>
    intro m0 hnd hdisj
    simp only [akeys, List.map_cons, List.nodup_cons] at hnd
    have hdisj1 : ∀ k ∈ akeys m0, k ∉ akeys rest := by
      intro k hk
      have := hdisj k hk
      simp only [akeys, List.map_cons, List.mem_cons] at this
      push_neg at this
      exact this.2
    rw [List.foldl_cons, List.filterMap_cons]
    by_cases hm : ts.filter (fun t => matchesRule r.2 t) = []
    · rw [if_pos hm, if_pos hm, ih m0 hnd.2 hdisj1]
    · rw [if_neg hm, if_neg hm]
      have hr1 : r.1 ∉ akeys m0 := fun hk =>
        hdisj r.1 hk (by simp [akeys])
      have hdisj2 : ∀ k ∈ akeys (m0 ++ [(r.1, ts.filter (fun t => matchesRule r.2 t))]),
          k ∉ akeys rest := by
        intro k hk
        rw [akeys, List.map_append] at hk
        rcases List.mem_append.1 hk with hk | hk
        · exact hdisj1 k hk
        · simp only [List.map_cons, List.map_nil, List.mem_singleton] at hk
          exact hk ▸ hnd.1
      rw [dictInsert_eq_append m0 r.1 _ hr1, ih _ hnd.2 hdisj2, List.append_assoc]
      rfl

theorem selves_fold_eq :
    ∀ (L : List String) (m0 : List (String × List String)), L.Nodup →
      (∀ u ∈ L, u ∉ akeys m0) →
      L.foldl (fun m t => dictInsert m t [t]) m0 = m0 ++ L.map (fun u => (u, [u])) := by
  intro L
  induction L with
  | nil => intro m0 _ _; simp
  | cons u rest ih =>
    intro m0 hnd hdisj
    rw [List.nodup_cons] at hnd
    have h1 : dictInsert m0 u ([u] : List String) = m0 ++ [(u, [u])] :=
      dictInsert_eq_append m0 u [u] (hdisj u (List.mem_cons_self _ _))
    have hdisj' : ∀ v ∈ rest, v ∉ akeys (m0 ++ [(u, ([u] : List String))]) := by
      intro v hv
      rw [akeys, List.map_append]
      intro hk
      rcases List.mem_append.1 hk with hk | hk
      · exact hdisj v (List.mem_cons_of_mem _ hv) hk
      · simp only [List.map_cons, List.map_nil, List.mem_singleton] at hk
        exact hnd.1 (hk ▸ hv)
    rw [List.foldl_cons, h1, ih _ hnd.2 hdisj', List.append_assoc]
    rfl

theorem bucketCount_append (m1 m2 : List (String × List String)) (t : String) :
    bucketCount (m1 ++ m2) t = bucketCount m1 t + bucketCount m2 t := by
  rw [bucketCount, bucketCount, bucketCount, List.filter_append, List.length_append]

theorem base_bucketCount (ts : List String) (t : String) (ht : t ∈ ts) :
    ∀ R : List (String × List String),
      bucketCount (R.filterMap (fun rule =>
        if ts.filter (fun x => matchesRule rule.2 x) = [] then none
        else some (rule.1, ts.filter (fun x => matchesRule rule.2 x)))) t =
      (R.filter (fun rule => matchesRule rule.2 t)).length := by
  intro R
  induction R with
  | nil => rfl
  | cons r rest ih =>
    rw [List.filterMap_cons, List.filter_cons]
    by_cases hmr : matchesRule r.2 t = true
    · have htf : t ∈ ts.filter (fun x => matchesRule r.2 x) := List.mem_filter.2 ⟨ht, hmr⟩
      have hne : ts.filter (fun x => matchesRule r.2 x) ≠ [] := List.ne_nil_of_mem htf
      have hcont : (ts.filter (fun x => matchesRule r.2 x)).contains t = true := by
        rw [contains_eq_decide_mem]
        simp [htf]
      rw [if_neg hne, bucketCount, List.filter_cons]
      simp only [hcont, if_true]
      rw [List.length_cons, hmr, if_pos rfl, List.length_cons]
      rw [bucketCount] at ih
      rw [ih]
    · have hmr' : matchesRule r.2 t = false := by
        cases h : matchesRule r.2 t
        · rfl
        · exact absurd h hmr
      rw [hmr']
      simp only [Bool.false_eq_true, if_false]
      by_cases hfil : ts.filter (fun x => matchesRule r.2 x) = []
      · rw [if_pos hfil]
        exact ih
      · rw [if_neg hfil]
        have hcont : (ts.filter (fun x => matchesRule r.2 x)).contains t = false := by
          rw [contains_eq_decide_mem]
          simp only [decide_eq_false_iff_not]
          intro hmem
          exact hmr (List.mem_filter.1 hmem).2
        rw [bucketCount, List.filter_cons]
        simp only [hcont, Bool.false_eq_true, if_false]
        rw [bucketCount] at ih
        rw [ih]

theorem selves_bucketCount (t : String) :
    ∀ L : List String, L.Nodup →
      bucketCount (L.map (fun u => (u, ([u] : List String)))) t = if t ∈ L then 1 else 0 := by
  intro L
  induction L with
  | nil => intro _; simp [bucketCount]
  | cons u rest ih =>
    intro hnd
    rw [List.nodup_cons] at hnd
    rw [List.map_cons, bucketCount, List.filter_cons]
    by_cases htu : t = u
    · have hcont : ([u] : List String).contains t = true := by
        rw [contains_eq_decide_mem]
        simp [htu]
      simp only [hcont, if_true]
      rw [List.length_cons]
      have hnr : t ∉ rest := htu ▸ hnd.1
      rw [bucketCount] at ih
      rw [ih hnd.2, if_neg hnr, if_pos (List.mem_cons.2 (Or.inl htu))]
    · have hcont : ([u] : List String).contains t = false := by
        rw [contains_eq_decide_mem]
        simp [htu]
      simp only [hcont, Bool.false_eq_true, if_false]
      rw [bucketCount] at ih
      rw [ih hnd.2]
      have hmem : (t ∈ u :: rest) ↔ t ∈ rest := by
        rw [List.mem_cons]
        exact ⟨fun h => h.resolve_left htu, Or.inr⟩
      by_cases hr : t ∈ rest
      · rw [if_pos hr, if_pos (hmem.2 hr)]
      · rw [if_neg hr, if_neg (fun hh => hr (hmem.1 hh))]

theorem akeys_filterMap_sub (ts : List String) :
    ∀ (R : List (String × List String)) (k : String),
      k ∈ akeys (R.filterMap (fun rule =>
        if ts.filter (fun x => matchesRule rule.2 x) = [] then none
        else some (rule.1, ts.filter (fun x => matchesRule rule.2 x)))) → k ∈ akeys R := by
  intro R
  induction R with
  | nil => intro k hk; simp [akeys] at hk
  | cons r rest ih =>
    intro k hk
    rw [List.filterMap_cons] at hk
    by_cases hfil : ts.filter (fun x => matchesRule r.2 x) = []
    · rw [if_pos hfil] at hk
      exact List.mem_cons_of_mem _ (ih k hk)
    · rw [if_neg hfil] at hk
      simp only [akeys, List.map_cons, List.mem_cons] at hk ⊢
      rcases hk with hk | hk
      · exact Or.inl hk
      · exact Or.inr (ih k hk)

theorem heuristic_unfold (ts : List String) :
    consolidate_topics_heuristic ts =
      (ts.filter (fun x => !(matchesAnyRule x))).foldl (fun m t => dictInsert m t [t])
        (consolidation_rules.foldl (fun m rule =>
          if ts.filter (fun x => matchesRule rule.2 x) = [] then m
          else dictInsert m rule.1 (ts.filter (fun x => matchesRule rule.2 x))) []) := rfl

/-- The bucket count of the heuristic consolidator: a topic that matches at
least one keyword rule appears in the bucket of every rule it matches (one
bucket per matching rule); a topic matching no rule appears exactly once, in
its own self-bucket. -/
theorem bucketCount_heuristic_char (ts : List String) (hnd : ts.Nodup) (t : String)
    (ht : t ∈ ts) :
    bucketCount (consolidate_topics_heuristic ts) t =
      if matchesAnyRule t = true then matchingRuleCount t else 1 := by
  have hbase := heuristic_base_eq ts consolidation_rules [] rule_names_nodup
    (by intro k hk; simp [akeys] at hk)
  have hLnd : (ts.filter (fun x => !(matchesAnyRule x))).Nodup := hnd.filter _
  have hdisjL : ∀ u ∈ ts.filter (fun x => !(matchesAnyRule x)),
      u ∉ akeys (consolidation_rules.filterMap (fun rule =>
        if ts.filter (fun x => matchesRule rule.2 x) = [] then none
        else some (rule.1, ts.filter (fun x => matchesRule rule.2 x)))) := by
    intro u hu hk
    have hany : matchesAnyRule u = false := by
      have := (List.mem_filter.1 hu).2
      simpa using this
    have := rule_names_match u (akeys_filterMap_sub ts consolidation_rules u hk)
    rw [hany] at this
    cases this
  rw [heuristic_unfold, hbase, List.nil_append,
    selves_fold_eq _ _ hLnd hdisjL, bucketCount_append,
    base_bucketCount ts t ht, selves_bucketCount t _ hLnd]
  by_cases hm : matchesAnyRule t = true
  · have hnotL : t ∉ ts.filter (fun x => !(matchesAnyRule x)) := by
      intro hmem
      have := (List.mem_filter.1 hmem).2
      rw [hm] at this
      simp at this
    rw [if_pos hm, if_neg hnotL, matchingRuleCount]
    omega
  · have hm' : matchesAnyRule t = false := by
      cases h : matchesAnyRule t
      · rfl
      · exact absurd h hm
    have hinL : t ∈ ts.filter (fun x => !(matchesAnyRule x)) :=
      List.mem_filter.2 ⟨ht, by simp [hm']⟩
    have hnil : consolidation_rules.filter (fun rule => matchesRule rule.2 t) = [] := by
      rw [List.filter_eq_nil_iff]
      intro rule hrule hmr
      rw [matchesAnyRule] at hm'
      have := List.any_eq_false.1 hm' rule hrule
      exact this hmr
    rw [if_neg hm, if_pos hinL, hnil]
    rfl

theorem one_le_bucketCount_heuristic (ts : List String) (hnd : ts.Nodup) (t : String)
    (ht : t ∈ ts) : 1 ≤ bucketCount (consolidate_topics_heuristic ts) t := by
  rw [bucketCount_heuristic_char ts hnd t ht]
  by_cases hm : matchesAnyRule t = true
  · rw [if_pos hm, matchingRuleCount]
    rw [matchesAnyRule] at hm
    obtain ⟨r, hr, hrt⟩ := List.any_eq_true.1 hm
    have hmem : r ∈ consolidation_rules.filter (fun rule => matchesRule rule.2 t) :=
      List.mem_filter.2 ⟨hr, hrt⟩
    have := List.length_pos.2 (List.ne_nil_of_mem hmem)
    omega
  · rw [if_neg hm]

/-- C3 counterexample: the topic `"slow"` matches the keyword `"slow"` of
both the `"Delivery delay"` rule and the `"App performance issues"` rule, so
it appears in two canonical buckets, refuting "exactly one bucket". -/
theorem heuristic_two_buckets_for_slow :
    bucketCount (consolidate_topics_heuristic [ "slow" ]) ("slow") = 2
    ∧ bucketCount (consolidate_topics_heuristic [ "slow" ]) ("slow") ≠ 1 :=
  ⟨by decide, by decide⟩

/-- C3 amended claim: for every non-empty list of unique topics, each topic
appears in AT LEAST one canonical bucket of the heuristic consolidator's
output — in the bucket of EVERY keyword rule it matches (hence possibly more
than one), or in exactly one self-bucket when it matches no keyword. -/
theorem heuristic_bucket_coverage (ts : List String) (hne : ts ≠ []) (hnd : ts.Nodup) :
    ∀ t ∈ ts,
      1 ≤ bucketCount (consolidate_topics_heuristic ts) t
      ∧ bucketCount (consolidate_topics_heuristic ts) t =
          (if matchesAnyRule t = true then matchingRuleCount t else 1)
      ∧ (matchesAnyRule t = false →
          bucketCount (consolidate_topics_heuristic ts) t = 1) := by
  intro t ht
  refine ⟨one_le_bucketCount_heuristic ts hnd t ht, bucketCount_heuristic_char ts hnd t ht, ?_⟩
  intro hfalse
  rw [bucketCount_heuristic_char ts hnd t ht, if_neg (by simp [hfalse])]

/-- Witness for C3 at a concrete input. -/
theorem heuristic_bucket_coverage_witness :
    (([ "slow", "great app" ] : List String) ≠ [] ∧ ([ "slow", "great app" ] : List String).Nodup
      ∧ ("slow" : String) ∈ [ "slow", "great app" ])
    ∧ (1 ≤ bucketCount (consolidate_topics_heuristic [ "slow", "great app" ]) ("slow")
      ∧ bucketCount (consolidate_topics_heuristic [ "slow", "great app" ]) ("slow") =
          (if matchesAnyRule ("slow") = true then matchingRuleCount ("slow") else 1)
      ∧ (matchesAnyRule ("slow") = false →
          bucketCount (consolidate_topics_heuristic [ "slow", "great app" ]) ("slow") = 1)) :=
  ⟨⟨by decide, by decide, by decide⟩,
    heuristic_bucket_coverage [ "slow", "great app" ] (by decide) (by decide) ("slow")
      (by decide)⟩

/-! ### Claim C7: the consolidation tiers never raise -/

/-- C7: consolidation never raises to its caller.  The two fallible tiers are
modelled as `Except` values (any exception inside their `try` blocks is the
`error` case); the orchestrator is a total function into canonical mappings.
A successful embedding-clustering tier is returned as-is; on its failure (or
when disabled) a successful LLM tier is returned; when both fail, the result
is the pure heuristic consolidation of the deduplicated topics, which covers
every topic. -/
theorem consolidate_topics_never_raises
    (useEmbeddings : Bool)
    (clusterOut llmOut : Except Unit (List (String × List String)))
    (all_topics : List String) :
    (∀ m, useEmbeddings = true → clusterOut = .ok m → all_topics ≠ [] →
      consolidate_topics useEmbeddings clusterOut llmOut all_topics = m)
    ∧ (∀ m, llmOut = .ok m → (useEmbeddings = false ∨ clusterOut = .error ()) →
        all_topics ≠ [] →
        consolidate_topics useEmbeddings clusterOut llmOut all_topics = m)
    ∧ (clusterOut = .error () → llmOut = .error () →
        consolidate_topics useEmbeddings clusterOut llmOut all_topics =
          if all_topics = [] then [] else consolidate_topics_heuristic all_topics.dedup)
    ∧ (∀ t ∈ all_topics.dedup,
        1 ≤ bucketCount (consolidate_topics_heuristic all_topics.dedup) t) := by
  refine ⟨?_, ?_, ?_, ?_⟩
  · intro m hu hc hne
    subst hu
    subst hc
    simp [consolidate_topics, hne]
  · intro m hl hcase hne
    subst hl
    rcases hcase with hu | hc
    · subst hu
      simp [consolidate_topics, consolidate_topics_llm, hne]
    · subst hc
      cases useEmbeddings with
      | true => simp [consolidate_topics, consolidate_topics_llm, hne]
      | false => simp [consolidate_topics, consolidate_topics_llm, hne]
  · intro hc hl
    subst hc
    subst hl
    by_cases hne : all_topics = []
    · subst hne
      simp [consolidate_topics]
    · rw [if_neg hne]
      cases useEmbeddings with
      | true => simp [consolidate_topics, consolidate_topics_llm, hne]
      | false => simp [consolidate_topics, consolidate_topics_llm, hne]
  · intro t ht
    exact one_le_bucketCount_heuristic _ (List.nodup_dedup _) t ht

/-- Witness for C7: both fallible tiers fail on a concrete input and the
orchestrator returns the heuristic mapping. -/
theorem consolidate_topics_never_raises_witness :
    ((Except.error () : Except Unit (List (String × List String))) = .error ())
    ∧ consolidate_topics true (.error ()) (.error ()) [ "slow" ] =
        (if ([ "slow" ] : List String) = [] then []
         else consolidate_topics_heuristic ([ "slow" ] : List String).dedup) :=
  ⟨rfl, (consolidate_topics_never_raises true (.error ()) (.error ())
    [ "slow" ]).2.2.1 rfl rfl⟩

/-! ### Claim C8: which casing the deduplication keeps -/

theorem getLast?_cons_eq {α : Type} : ∀ (l : List α) (a : α),
    (a :: l).getLast? = match l.getLast? with | some v => some v | none => some a := by
  intro l
  induction l with
  | nil => intro a; rfl
  | cons b bs ih =>
    intro a
    rw [List.getLast?_cons_cons, ih b]
    cases bs.getLast? with
    | some v => rfl
    | none => rfl

theorem dedup_dict_lookup (ts : List String) :
    ∀ (m0 : List (String × String)) (k : String),
      alookup (ts.foldl (fun m t => dictInsert m (pyLower t) t) m0) k =
        match (ts.filter (fun t => pyLower t = k)).getLast? with
        | some v => some v
        | none => alookup m0 k := by
  induction ts with
  | nil => intro m0 k; simp
  | cons t0 rest ih =>
    intro m0 k
    rw [List.foldl_cons, ih, List.filter_cons]
    by_cases h : pyLower t0 = k
    · rw [if_pos (decide_eq_true h), getLast?_cons_eq]
      cases hrest : (rest.filter (fun t => decide (pyLower t = k))).getLast? with
      | some v => rfl
      | none =>
        rw [← h, alookup_dictInsert_self]
    · rw [if_neg (fun hh => h (of_decide_eq_true hh))]
      cases hrest : (rest.filter (fun t => decide (pyLower t = k))).getLast? with
      | some v => rfl
      | none =>
        exact alookup_dictInsert_ne m0 (pyLower t0) k t0 (fun hh => h hh.symm)

/-- C8 amended claim: the case-insensitive deduplication of
`cluster_topics` keeps, for each case-class, the LAST occurrence's original
casing (at the position of the class's first occurrence), not the first
occurrence's: a string is kept exactly when it is the last occurrence of its
case-class in the input. -/
theorem dedup_keeps_last_casing (ts : List String) (t : String) :
    t ∈ dedupLastCasing ts ↔
      (ts.filter (fun w => pyLower w = pyLower t)).getLast? = some t := by
  have hchar := dedup_dict_lookup ts [] (pyLower t)
  have hinv := dedup_dict_inv ts [] (by intro p hp; simp at hp)
  have hknd := dedup_dict_keys_nodup ts [] (by simp [akeys])
  constructor
  · intro h
    obtain ⟨p, hp, hpt⟩ := List.mem_map.1 h
    have hkey : p.1 = pyLower t := by
      rw [← hpt]
      exact (hinv p hp).symm
    have hpair : (pyLower t, t) ∈ ts.foldl (fun m t => dictInsert m (pyLower t) t) [] := by
      have : p = (pyLower t, t) := by
        rcases p with ⟨pk, pv⟩
        simp only at hpt hkey
        rw [hpt, hkey]
      exact this ▸ hp
    have hlk : alookup (ts.foldl (fun m t => dictInsert m (pyLower t) t) []) (pyLower t) =
        some t := alookup_eq_of_mem_nodup _ _ _ hknd hpair
    rw [hchar] at hlk
    cases hrest : (ts.filter (fun w => pyLower w = pyLower t)).getLast? with
    | some v =>
      rw [hrest] at hlk
      simpa using hlk
    | none =>
      rw [hrest] at hlk
      simp [alookup] at hlk
  · intro h
    have hlk : alookup (ts.foldl (fun m t => dictInsert m (pyLower t) t) []) (pyLower t) =
        some t := by
      rw [hchar, h]
    have hpair := alookup_mem _ _ _ hlk
    exact List.mem_map.2 ⟨(pyLower t, t), hpair, rfl⟩

/-- C8 counterexample: with input `["Food", "FOOD"]` the representative kept
for the case-class is `"FOOD"` (the last occurrence's casing), not the first
occurrence's casing `"Food"` as the claim states. -/
theorem dedup_last_not_first_casing :
    dedupLastCasing [ "Food", "FOOD" ] = [ "FOOD" ]
    ∧ ("Food" : String) ∉ dedupLastCasing [ "Food", "FOOD" ]
    ∧ ("FOOD" : String) ≠ ("Food") :=
  ⟨by decide, by decide, by decide⟩

/-! ### Claim C10: the embedding service drops filtered entries -/

theorem fold_upd_apply_notmem {α : Type} :
    ∀ (ps : List (Nat × α)) (f : Nat → α) (i : Nat), i ∉ ps.map Prod.fst →
      (ps.foldl (fun f p j => if j = p.1 then p.2 else f j) f) i = f i := by
  intro ps
  induction ps with
  | nil => intro f i _; rfl
  | cons p rest ih =>
    intro f i hi
    simp only [List.map_cons, List.mem_cons] at hi
    push_neg at hi
    rw [List.foldl_cons, ih _ _ hi.2]
    show (if i = p.1 then p.2 else f i) = f i
    rw [if_neg hi.1]

theorem fold_upd_pointwise {α : Type} :
    ∀ (ps : List (Nat × α)) (f g : Nat → α) (i : Nat), f i = g i →
      (ps.foldl (fun f p j => if j = p.1 then p.2 else f j) f) i =
      (ps.foldl (fun f p j => if j = p.1 then p.2 else f j) g) i := by
  intro ps
  induction ps with
  | nil => intro f g i h; exact h
  | cons p rest ih =>
    intro f g i h
    rw [List.foldl_cons, List.foldl_cons]
    refine ih _ _ i ?_
    show (if i = p.1 then p.2 else f i) = (if i = p.1 then p.2 else g i)
    by_cases hip : i = p.1
    · rw [if_pos hip, if_pos hip]
    · rw [if_neg hip, if_neg hip, h]

theorem enumFrom_fst_ge {β : Type} : ∀ (l : List β) (n : Nat) (p : Nat × β),
    p ∈ l.enumFrom n → n ≤ p.1 := by
  intro l
  induction l with
  | nil => intro n p hp; simp [List.enumFrom] at hp
  | cons b bs ih =>
    intro n p hp
    rw [List.enumFrom_cons] at hp
    rcases List.mem_cons.1 hp with h | h
    · rw [h]
    · exact le_trans (Nat.le_succ n) (ih (n + 1) p h)

theorem cached_fst_ge {α : Type} (c : String → Option α) (l : List String) (n : Nat)
    (p : Nat × α)
    (hp : p ∈ (l.enumFrom n).filterMap (fun it => (c it.2).map (fun e => (it.1, e)))) :
    n ≤ p.1 := by
  obtain ⟨it, hit, hpick⟩ := List.mem_filterMap.1 hp
  have h1 := enumFrom_fst_ge l n it hit
  cases hc : c it.2 with
  | none =>
    rw [hc] at hpick
    simp at hpick
  | some e =>
    rw [hc] at hpick
    simp only [Option.map_some'] at hpick
    injection hpick with h2
    rw [← h2]
    exact h1

theorem encodeTable_cons_some {α : Type} (model : String → α) (c : String → Option α)
    (t : String) (rest : List String) (k : Nat) (f0 : Nat → α) (e : α) (hc : c t = some e)
    (i : Nat) :
    encodeTable model c k (t :: rest) f0 i =
      encodeTable model c (k + 1) rest (fun j => if j = k then e else f0 j) i := by
  rw [encodeTable, encodeTable]
  rw [List.enumFrom_cons,
    List.filterMap_cons_some (by rw [hc]; rfl),
    List.filterMap_cons_none (by rw [hc]),
    List.filter_cons_of_neg (by simp [hc]),
    List.foldl_cons]

theorem encodeTable_cons_none {α : Type} (model : String → α) (c : String → Option α)
    (t : String) (rest : List String) (k : Nat) (f0 : Nat → α) (hc : c t = none)
    (i : Nat) :
    encodeTable model c k (t :: rest) f0 i =
      encodeTable model c (k + 1) rest (fun j => if j = k then model t else f0 j) i := by
  rw [encodeTable, encodeTable]
  rw [List.enumFrom_cons,
    List.filterMap_cons_none (by rw [hc]; rfl),
    List.filterMap_cons_some (by rw [hc]),
    List.filter_cons_of_pos (by rw [hc]; rfl),
    List.map_cons, List.zip_cons_cons, List.foldl_cons]
  refine fold_upd_pointwise _ _ _ i ?_
  have hbound : k ∉ ((rest.enumFrom (k + 1)).filterMap
      (fun it => (c it.2).map (fun e => (it.1, e)))).map Prod.fst := by
    intro hk
    obtain ⟨p, hp, hpk⟩ := List.mem_map.1 hk
    have := cached_fst_ge c rest (k + 1) p hp
    omega
  show (if i = k then model t else
      ((rest.enumFrom (k + 1)).filterMap (fun it => (c it.2).map (fun e => (it.1, e)))).foldl
        (fun f p j => if j = p.1 then p.2 else f j) f0 i) =
    ((rest.enumFrom (k + 1)).filterMap (fun it => (c it.2).map (fun e => (it.1, e)))).foldl
      (fun f p j => if j = p.1 then p.2 else f j) (fun j => if j = k then model t else f0 j) i
  by_cases hik : i = k
  · subst hik
    rw [if_pos rfl, fold_upd_apply_notmem _ _ _ hbound]
    simp
  · rw [if_neg hik]
    refine fold_upd_pointwise _ _ _ i ?_
    show f0 i = if i = k then model t else f0 i
    rw [if_neg hik]

theorem encodeTable_spec {α : Type} (model : String → α) (c : String → Option α) :
    ∀ (l : List String) (k : Nat) (f0 : Nat → α),
      (∀ j, j < l.length → encodeTable model c k l f0 (k + j) =
        (c (l.getD j (""))).getD (model (l.getD j (""))))
      ∧ (∀ i, i < k → encodeTable model c k l f0 i = f0 i) := by
  intro l
  induction l with
  | nil =>
    intro k f0
    constructor
    · intro j hj; simp at hj
    · intro i _; rfl
  | cons t rest ih =>
    intro k f0
    cases hc : c t with
    | some e =>
      obtain ⟨ih1, ih2⟩ := ih (k + 1) (fun j => if j = k then e else f0 j)
      constructor
      · intro j hj
        cases j with
        | zero =>
          rw [Nat.add_zero, encodeTable_cons_some model c t rest k f0 e hc,
            ih2 k (Nat.lt_succ_self k), if_pos rfl]
          simp [hc]
        | succ j' =>
          rw [encodeTable_cons_some model c t rest k f0 e hc,
            show k + (j' + 1) = (k + 1) + j' from by omega,
            ih1 j' (by simpa using hj)]
          rfl
      · intro i hi
        rw [encodeTable_cons_some model c t rest k f0 e hc,
          ih2 i (Nat.lt_trans hi (Nat.lt_succ_self k)), if_neg (Nat.ne_of_lt hi)]
    | none =>
      obtain ⟨ih1, ih2⟩ := ih (k + 1) (fun j => if j = k then model t else f0 j)
      constructor
      · intro j hj
        cases j with
        | zero =>
          rw [Nat.add_zero, encodeTable_cons_none model c t rest k f0 hc,
            ih2 k (Nat.lt_succ_self k), if_pos rfl]
          simp [hc]
        | succ j' =>
          rw [encodeTable_cons_none model c t rest k f0 hc,
            show k + (j' + 1) = (k + 1) + j' from by omega,
            ih1 j' (by simpa using hj)]
          rfl
      · intro i hi
        rw [encodeTable_cons_none model c t rest k f0 hc,
          ih2 i (Nat.lt_trans hi (Nat.lt_succ_self k)), if_neg (Nat.ne_of_lt hi)]

theorem map_range_eq_map {α β : Type} (dflt : β) :
    ∀ (l : List β) (F : Nat → α) (g : β → α),
      (∀ j, j < l.length → F j = g (l.getD j dflt)) →
      (List.range l.length).map F = l.map g := by
  intro l
  induction l with
  | nil => intro F g _; rfl
  | cons b bs ih =>
    intro F g hF
    rw [List.length_cons, List.range_succ_eq_map, List.map_cons, List.map_cons,
      List.map_map]
    congr 1
    · exact hF 0 (by rw [List.length_cons]; omega)
    · refine ih (fun j => F (j + 1)) g ?_
      intro j hj
      have := hF (j + 1) (by rw [List.length_cons]; omega)
      exact this

theorem length_filter_lt_of_not (p : String → Bool) :
    ∀ l : List String, (∃ x ∈ l, p x = false) → (l.filter p).length < l.length := by
  intro l
  induction l with
  | nil => rintro ⟨x, hx, _⟩; simp at hx
  | cons a rest ih =>
    rintro ⟨x, hx, hpx⟩
    rw [List.filter_cons]
    by_cases hpa : p a = true
    · rw [if_pos hpa, List.length_cons, List.length_cons]
      have hxr : x ∈ rest := by
        rcases List.mem_cons.1 hx with h | h
        · rw [h] at hpx
          rw [hpx] at hpa
          cases hpa
        · exact h
      have := ih ⟨x, hxr, hpx⟩
      omega
    · have hpa' : ¬ p a = true := hpa
      rw [if_neg hpa', List.length_cons]
      have := List.length_filter_le p rest
      omega

/-- C10: `EmbeddingService.encode` drops filtered entries rather than
placeholding them: the returned array has exactly one row per input string
that is non-empty after stripping, in the order of those surviving strings
(each row the cached or freshly computed embedding of its surviving string),
so when the input contains an empty or whitespace-only string the output is
strictly shorter than the input and positions after it no longer align with
input indices. -/
theorem encode_drops_filtered_entries {α : Type} (model : String → α)
    (cache : Option (String → Option α)) (zero : α) (texts : List String) :
    encode model cache zero texts = (texts.filter isValidText).map (embOf model cache)
    ∧ ((∃ t ∈ texts, isValidText t = false) →
        (encode model cache zero texts).length < texts.length) := by
  have hmain : encode model cache zero texts =
      (texts.filter isValidText).map (embOf model cache) := by
    unfold encode
    by_cases hv : texts.filter isValidText = []
    · rw [if_pos hv, hv, List.map_nil]
    · rw [if_neg hv]
      cases cache with
      | none => rfl
      | some c =>
        have hspec := encodeTable_spec model c (texts.filter isValidText) 0 (fun _ => zero)
        refine (map_range_eq_map ("") (texts.filter isValidText)
          (encodeTable model c 0 (texts.filter isValidText) (fun _ => zero))
          (embOf model (some c)) ?_)
        intro j hj
        have := hspec.1 j hj
        rw [Nat.zero_add] at this
        rw [this]
        rfl
  refine ⟨hmain, ?_⟩
  intro hex
  rw [hmain, List.length_map]
  exact length_filter_lt_of_not isValidText texts hex

/-- Witness for C10: an input with a whitespace-only string yields a shorter
output. -/
theorem encode_drops_filtered_entries_witness :
    (∃ t ∈ ([ "a", " ", "b" ] : List String), isValidText t = false)
    ∧ (encode (fun t => t.length) (some (fun _ => (none : Option Nat))) 0
          [ "a", " ", "b" ] =
        (([ "a", " ", "b" ] : List String).filter isValidText).map
          (embOf (fun t => t.length) (some (fun _ => (none : Option Nat))))
      ∧ ((∃ t ∈ ([ "a", " ", "b" ] : List String), isValidText t = false) →
          (encode (fun t => t.length) (some (fun _ => (none : Option Nat))) 0
            [ "a", " ", "b" ]).length < ([ "a", " ", "b" ] : List String).length)) :=
  ⟨⟨(" "), by decide, by decide⟩,
    encode_drops_filtered_entries (fun t => t.length)
      (some (fun _ => (none : Option Nat))) 0 [ "a", " ", "b" ]⟩

end TrendSpec
